import Mathlib

/-!
Verification of the headline normalization / scoring / aggregation pipeline.

A shallow embedding of the core of the news-scraper repository:

* `keyword_frequency.py` — `fix_unicode`, `strip_trailing_source`,
  `normalize_title`, `build_count_matrix`, `summarize_terms`,
  `keyword_frequency`;
* `sentiment_tone.py` — `tokenize_upper`, `score_title` (the inner function of
  `add_lm_metrics`), `top_lm_terms`, the one-row distribution summary;
* `main_scraper.py` — the analysis stage of `get_news_and_analyze`.

Python strings are modelled as Lean `String`/`List Char` (code points);
Python `float` arithmetic on shares and means is modelled exactly over `ℚ`;
fallible library calls (the vectorizer, `idxmax`) are modelled with `Except`.
Library routines used by the source (`html.unescape`, `unicodedata.normalize`
with form NFC, `re`, pandas sorting) are embedded with the algorithm the
library documents, restricted where noted to a representative finite table
(HTML named entities, canonical compositions, stop words); each restriction
is recorded in the doc comment of the corresponding definition.
-/

/-! ## Character helpers -/

/-- Python's whitespace class `\s` (and `str.strip`) on the code points that
occur in this development: space, TAB, LF, VT, FF, CR and NBSP (U+00A0). -/
def pyIsSpace (c : Char) : Bool :=
  c.toNat = 32 || c.toNat = 9 || c.toNat = 10 || c.toNat = 11 ||
  c.toNat = 12 || c.toNat = 13 || c.toNat = 160

/-- The code points `str.lower` shifts by 32: `A`–`Z` and the Latin-1
capitals `À`–`Þ` except `×`. -/
def lowerRange (n : Nat) : Prop :=
  (65 ≤ n ∧ n ≤ 90) ∨ (192 ≤ n ∧ n ≤ 222 ∧ n ≠ 215)

instance (n : Nat) : Decidable (lowerRange n) := by
  unfold lowerRange; infer_instance

/-- Python's `str.lower` on the ASCII and Latin-1 ranges: `A`–`Z` and
`À`–`Þ` (except `×`) map to the code point 32 higher; every other code point
is left unchanged (sufficient for the Latin-1 fragment modelled here). -/
def pyLower (c : Char) : Char :=
  if lowerRange c.toNat then Char.ofNat (c.toNat + 32) else c

/-- Python's `str.upper` on ASCII (`.upper()` is applied by the tokenizer only
to matches of `[A-Za-z0-9]{2,}`, so the ASCII case suffices). -/
def asciiUpper (c : Char) : Char :=
  if 97 ≤ c.toNat && c.toNat ≤ 122 then Char.ofNat (c.toNat - 32) else c

/-- Drop a maximal run of trailing whitespace (the right half of
`str.strip`). -/
def dropTrailWs : List Char → List Char
  | [] => []
  | c :: rest =>
    let r := dropTrailWs rest
    if r.isEmpty && pyIsSpace c then [] else c :: r

/-- Python's `str.strip()`: drop leading and trailing whitespace. -/
def pyStrip (l : List Char) : List Char :=
  dropTrailWs (l.dropWhile pyIsSpace)

/-- The function `str.strip()` on `String`s (used by the record filter
`df["title"].astype(str).str.strip().ne("")`). -/
def pyStripStr (s : String) : String :=
  ⟨pyStrip s.data⟩

/-- State machine for `re.sub(r"\s+", " ", s)`: when the first argument is
set the current whitespace run has already emitted its single space. -/
def subWsGo : Bool → List Char → List Char
  | _, [] => []
  | true, c :: rest =>
    if pyIsSpace c then subWsGo true rest else c :: subWsGo false rest
  | false, c :: rest =>
    if pyIsSpace c then ' ' :: subWsGo true rest else c :: subWsGo false rest

/-- The function `re.sub(r"\s+", " ", s)`: replace every maximal whitespace run by a
single space. -/
def subWsRuns (l : List Char) : List Char :=
  subWsGo false l

/-! ## HTML unescaping (`html.unescape`)

`fix_unicode` starts with `html.unescape(s or "")`.  The stdlib routine
replaces each match of `&(#[0-9]+;?|#[xX][0-9a-fA-F]+;?|[^\t\n\f <&#;]{1,32};?)`
in a single left-to-right pass; a named reference is looked up in the HTML5
entity table, falling back to its longest known prefix of length ≥ 2, and an
unknown name is kept literally.  The entity table and the invalid-numeric
maps below are representative finite subsets of the stdlib tables. -/

/-- The character class `[^\t\n\f <&#;]` of the charref pattern. -/
def isNameChar (c : Char) : Bool :=
  !(c.toNat = 9 || c.toNat = 10 || c.toNat = 12 || c.toNat = 32 ||
    c.toNat = 60 || c.toNat = 38 || c.toNat = 35 || c.toNat = 59)

/-- Representative subset of `html.entities.html5` (the stdlib table has
entries both with and without the trailing semicolon). -/
def entityTable : List (String × String) :=
  [("amp;", "&"), ("amp", "&"), ("AMP;", "&"), ("AMP", "&"),
   ("lt;", "<"), ("lt", "<"), ("LT;", "<"), ("LT", "<"),
   ("gt;", ">"), ("gt", ">"), ("GT;", ">"), ("GT", ">"),
   ("quot;", "\""), ("quot", "\""), ("QUOT;", "\""), ("QUOT", "\""),
   ("apos;", "'"), ("nbsp;", " "), ("nbsp", " "),
   ("ndash;", "–"), ("mdash;", "—"), ("rsquo;", "’"), ("lsquo;", "‘"),
   ("rdquo;", "”"), ("ldquo;", "“"), ("hellip;", "…"), ("eacute;", "é"),
   ("agrave;", "à"), ("ocirc;", "ô")]

/-- Entity-table lookup by exact group text. -/
def lookupEnt (g : String) : Option String :=
  (entityTable.find? (fun p => p.1 = g)).map (fun p => p.2)

/-- The stdlib fallback loop `for x in range(len(s)-1, 1, -1)`: try ever
shorter prefixes of the group (length ≥ 2) and keep the remainder. -/
def tryPrefixes (g : List Char) : Nat → Option (List Char)
  | 0 => none
  | 1 => none
  | x + 2 =>
    match lookupEnt ⟨g.take (x + 2)⟩ with
    | some r => some (r.data ++ g.drop (x + 2))
    | none => tryPrefixes g (x + 1)

/-- The table `html._invalid_charrefs`, representative subset: Windows-1252 remappings
and the NUL replacement. -/
def invalidCharrefs : List (Nat × Char) :=
  [(0, '�'), (13, '\r'), (128, '€'), (130, '‚'), (145, '‘'),
   (146, '’'), (147, '“'), (148, '”'), (150, '–'), (151, '—')]

/-- Decide whether a numeric reference is dropped (`html._invalid_codepoints`,
representative subset: the C0 controls that are not whitespace and DEL). -/
def isInvalidCodepoint (n : Nat) : Bool :=
  (1 ≤ n && n ≤ 8) || (14 ≤ n && n ≤ 31) || n = 127

/-- Resolution of a numeric character reference (`html._replace_charref`,
numeric branch). -/
def numCharref (n : Nat) : List Char :=
  match (invalidCharrefs.find? (fun p => p.1 = n)).map (fun p => p.2) with
  | some c => [c]
  | none =>
    if (55296 ≤ n && n ≤ 57343) || 1114111 < n then ['�']
    else if isInvalidCodepoint n then []
    else [Char.ofNat n]

/-- ASCII hex digit. -/
def isHexDigitB (c : Char) : Bool :=
  c.isDigit || (97 ≤ c.toNat && c.toNat ≤ 102) || (65 ≤ c.toNat && c.toNat ≤ 70)

/-- Numeric value of a hex digit. -/
def hexDigitVal (c : Char) : Nat :=
  if c.isDigit then c.toNat - 48
  else if 97 ≤ c.toNat then c.toNat - 87
  else c.toNat - 55

/-- Decimal digit string to number. -/
def decVal (ds : List Char) : Nat :=
  ds.foldl (fun n c => n * 10 + (c.toNat - 48)) 0

/-- Hex digit string to number. -/
def hexVal (ds : List Char) : Nat :=
  ds.foldl (fun n c => n * 16 + hexDigitVal c) 0

/-- Try to match a character reference at the position just after a `&`;
returns the replacement text and the number of characters consumed after
the `&`.  Mirrors the charref regular expression and
`html._replace_charref`. -/
def parseRef (l : List Char) : Option (List Char × Nat) :=
  match l with
  | '#' :: rest =>
    match rest with
    | [] => none
    | c :: rest2 =>
      if c = 'x' || c = 'X' then
        let ds := rest2.takeWhile isHexDigitB
        if ds.isEmpty then none
        else
          let semi := if (rest2.drop ds.length).head? = some ';' then 1 else 0
          some (numCharref (hexVal ds), 2 + ds.length + semi)
      else
        let ds := rest.takeWhile Char.isDigit
        if ds.isEmpty then none
        else
          let semi := if (rest.drop ds.length).head? = some ';' then 1 else 0
          some (numCharref (decVal ds), 1 + ds.length + semi)
  | _ =>
    let name := (l.takeWhile isNameChar).take 32
    if name.isEmpty then none
    else
      let semi := if (l.drop name.length).head? = some ';' then 1 else 0
      let g := name ++ (if semi = 1 then [';'] else [])
      let rep :=
        match lookupEnt ⟨g⟩ with
        | some r => r.data
        | none =>
          match tryPrefixes g (g.length - 1) with
          | some r => r
          | none => '&' :: g
      some (rep, name.length + semi)

/-- The function `html.unescape`'s scan, recursing on a fuel bound (each step consumes at
least the scanned character, so `l.length` steps suffice; the fuel-exhausted
row is unreachable from the wrapper). -/
def unescapeF : Nat → List Char → List Char
  | _, [] => []
  | 0, l => l
  | fuel + 1, c :: rest =>
    if c = '&' then
      match parseRef rest with
      | some (rep, n) => rep ++ unescapeF fuel (rest.drop n)
      | none => '&' :: unescapeF fuel rest
    else c :: unescapeF fuel rest

/-- The function `html.unescape`, single left-to-right pass (replacements are not
rescanned). -/
def unescape (l : List Char) : List Char :=
  unescapeF l.length l

/-! ## Unicode NFC (`unicodedata.normalize("NFC", s)`)

Modelled as the canonical composition pass over a representative composition
table (`e/E` + combining acute, `a/A` + combining grave, `o/O` + combining
circumflex); code points outside the table are already NFC-normal in this
fragment and pass through unchanged. -/

/-- Canonical composition of an adjacent (base, combining mark) pair,
restricted to the representative table.  The mark is examined first so that
non-mark second components compose with nothing. -/
def compose2 (x y : Char) : Option Char :=
  if y.toNat = 769 then
    if x.toNat = 101 then some 'é' else if x.toNat = 69 then some 'É' else none
  else if y.toNat = 768 then
    if x.toNat = 97 then some 'à' else if x.toNat = 65 then some 'À' else none
  else if y.toNat = 770 then
    if x.toNat = 111 then some 'ô' else if x.toNat = 79 then some 'Ô' else none
  else none

/-- The NFC composition pass on a fuel bound (each step shortens the list,
so `l.length` steps suffice; the fuel-exhausted row is unreachable from the
wrapper): repeatedly compose an adjacent composable pair, restarting at the
freshly composed character. -/
def nfcF : Nat → List Char → List Char
  | _, [] => []
  | _, [c] => [c]
  | 0, l => l
  | fuel + 1, a :: b :: rest =>
    match compose2 a b with
    | some c => nfcF fuel (c :: rest)
    | none => a :: nfcF fuel (b :: rest)

/-- The NFC composition pass. -/
def nfc (l : List Char) : List Char :=
  nfcF l.length l

/-! ## The text normalizer (`keyword_frequency.py`) -/

/-- The function `fix_unicode` on code-point lists: `html.unescape`, NFC, collapse
whitespace runs to a single space, strip the ends. -/
def fixUnicodeList (l : List Char) : List Char :=
  pyStrip (subWsRuns (nfc (unescape l)))

/-- The function `fix_unicode(s)`: unescape HTML, normalize to NFC, trim/collapse
spaces. -/
def fix_unicode (s : String) : String :=
  ⟨fixUnicodeList s.data⟩

/-- A dash-like character of `_SOURCE_TRAILER_RE`: `[–—-]`. -/
def isDashLike (c : Char) : Bool :=
  c.toNat = 8211 || c.toNat = 8212 || c.toNat = 45

/-- An ASCII capital, the `[A-Z]` of `_SOURCE_TRAILER_RE`. -/
def isUpperAZ (c : Char) : Bool :=
  65 ≤ c.toNat && c.toNat ≤ 90

/-- A word character for `\w` (ASCII alphanumeric, underscore, and the
Latin-1 letters of the modelled fragment). -/
def pyWordChar (c : Char) : Bool :=
  c.isAlphanum || c = '_' ||
  (192 ≤ c.toNat && c.toNat ≤ 255 && !(c.toNat = 215) && !(c.toNat = 247))

/-- A character of the trailer body class `[\w .&’'-]`. -/
def trailerChar (c : Char) : Bool :=
  pyWordChar c || c = ' ' || c = '.' || c = '&' || c = '’' || c = '\'' ||
  c = '-'

/-- The `[A-Z][\w .&’'-]{2,}$` tail of the trailer pattern. -/
def matchTrailer2 : List Char → Bool
  | [] => false
  | u :: t4 => isUpperAZ u && decide (2 ≤ t4.length) && t4.all trailerChar

/-- The `[–—-]\s+[A-Z][\w .&’'-]{2,}$` part of the trailer pattern applied
after the leading `\s*`. -/
def matchTrailer : List Char → Bool
  | [] => false
  | d :: t2 =>
    isDashLike d &&
    decide (1 ≤ (t2.takeWhile pyIsSpace).length) &&
    matchTrailer2 (t2.dropWhile pyIsSpace)

/-- Does `_SOURCE_TRAILER_RE = \s*[–—-]\s+[A-Z][\w .&’'-]{2,}$` match
starting at position `i`?  The pattern is anchored at the end, and each
greedy piece is followed by a piece it cannot overlap with, so matching is
deterministic: a maximal (possibly empty) whitespace run, a dash, a maximal
nonempty whitespace run, a capital, and at least two trailer-class
characters reaching the end of the string. -/
def matchAt (l : List Char) (i : Nat) : Bool :=
  matchTrailer ((l.drop i).dropWhile pyIsSpace)

/-- The function `strip_trailing_source`: remove a trailing `— Publisher` suffix (the
leftmost match of the trailer pattern, as `re.sub` finds it) and strip. -/
def strip_trailing_source (l : List Char) : List Char :=
  match (List.range (l.length + 1)).find? (matchAt l) with
  | some i => pyStrip (l.take i)
  | none => pyStrip l

/-- The function `normalize_title`: `fix_unicode`, then `strip_trailing_source`, then
`str.lower`. -/
def normalize_title (s : String) : String :=
  ⟨(strip_trailing_source (fixUnicodeList s.data)).map pyLower⟩

/-! ## Tokenizers -/

/-- A character of the LM tokenizer class `[A-Za-z0-9]` (`_WORD_RE`). -/
def isTokenChar (c : Char) : Bool :=
  c.isAlpha || c.isDigit

/-- Accumulator loop for `runsBy`: `cur` is the reversed current run. -/
def runsGo (p : Char → Bool) (cur : List Char) : List Char → List (List Char)
  | [] => if cur.isEmpty then [] else [cur.reverse]
  | c :: rest =>
    if p c then runsGo p (c :: cur) rest
    else if cur.isEmpty then runsGo p [] rest
    else cur.reverse :: runsGo p [] rest

/-- Maximal runs of characters satisfying `p` (the matches of `p+` under
`re.finditer`, which scans left to right and matches greedily). -/
def runsBy (p : Char → Bool) (l : List Char) : List (List Char) :=
  runsGo p [] l

/-- The function `tokenize_upper(s)`: the matches of `[A-Za-z0-9]{2,}` upper-cased —
maximal alphanumeric runs, runs of length 1 dropped. -/
def tokenize_upper (s : String) : List String :=
  ((runsBy isTokenChar s.data).filter (fun r => decide (2 ≤ r.length))).map
    (fun r => String.mk (r.map asciiUpper))

/-- The vectorizer's `token_pattern = (?u)\b\w\w+\b`: maximal word-character
runs of length at least 2. -/
def vectTokens (s : String) : List String :=
  ((runsBy pyWordChar s.data).filter (fun r => decide (2 ≤ r.length))).map
    String.mk

/-! ## The term-frequency engine -/

/-- The vectorizer's built-in English stop-word list (`stop_words="english"`,
a fixed frozenset in the library; transcribed here).  No theorem below
depends on its membership. -/
def englishStopWords : List String :=
  ["a", "about", "above", "across", "after", "afterwards", "again",
   "against", "all", "almost", "alone", "along", "already", "also",
   "although", "always", "am", "among", "amongst", "amoungst", "amount",
   "an", "and", "another", "any", "anyhow", "anyone", "anything", "anyway",
   "anywhere", "are", "around", "as", "at", "back", "be", "became",
   "because", "become", "becomes", "becoming", "been", "before",
   "beforehand", "behind", "being", "below", "beside", "besides",
   "between", "beyond", "bill", "both", "bottom", "but", "by", "call",
   "can", "cannot", "cant", "co", "con", "could", "couldnt", "cry", "de",
   "describe", "detail", "do", "done", "down", "due", "during", "each",
   "eg", "eight", "either", "eleven", "else", "elsewhere", "empty",
   "enough", "etc", "even", "ever", "every", "everyone", "everything",
   "everywhere", "except", "few", "fifteen", "fifty", "fill", "find",
   "fire", "first", "five", "for", "former", "formerly", "forty", "found",
   "four", "from", "front", "full", "further", "get", "give", "go", "had",
   "has", "hasnt", "have", "he", "hence", "her", "here", "hereafter",
   "hereby", "herein", "hereupon", "hers", "herself", "him", "himself",
   "his", "how", "however", "hundred", "i", "ie", "if", "in", "inc",
   "indeed", "interest", "into", "is", "it", "its", "itself", "keep",
   "last", "latter", "latterly", "least", "less", "ltd", "made", "many",
   "may", "me", "meanwhile", "might", "mill", "mine", "more", "moreover",
   "most", "mostly", "move", "much", "must", "my", "myself", "name",
   "namely", "neither", "never", "nevertheless", "next", "nine", "no",
   "nobody", "none", "noone", "nor", "not", "nothing", "now", "nowhere",
   "of", "off", "often", "on", "once", "one", "only", "onto", "or",
   "other", "others", "otherwise", "our", "ours", "ourselves", "out",
   "over", "own", "part", "per", "perhaps", "please", "put", "rather",
   "re", "same", "see", "seem", "seemed", "seeming", "seems", "serious",
   "several", "she", "should", "show", "side", "since", "sincere", "six",
   "sixty", "so", "some", "somehow", "someone", "something", "sometime",
   "sometimes", "somewhere", "still", "such", "system", "take", "ten",
   "than", "that", "the", "their", "them", "themselves", "then", "thence",
   "there", "thereafter", "thereby", "therefore", "therein", "thereupon",
   "these", "they", "thick", "thin", "third", "this", "those", "though",
   "three", "through", "throughout", "thru", "thus", "to", "together",
   "too", "top", "toward", "towards", "twelve", "twenty", "two", "un",
   "under", "until", "up", "upon", "us", "very", "via", "was", "we",
   "well", "were", "what", "whatever", "when", "whence", "whenever",
   "where", "whereafter", "whereas", "whereby", "wherein", "whereupon",
   "wherever", "whether", "which", "while", "whither", "who", "whoever",
   "whole", "whom", "whose", "why", "will", "with", "within", "without",
   "would", "yet", "you", "your", "yours", "yourself", "yourselves"]

/-- Code-point lexicographic order on code-point lists (Python string
comparison). -/
def charListLtB : List Char → List Char → Bool
  | [], [] => false
  | [], _ :: _ => true
  | _ :: _, [] => false
  | a :: as, b :: bs =>
    if a.toNat < b.toNat then true
    else if b.toNat < a.toNat then false
    else charListLtB as bs

/-- Python's `<` on strings. -/
def strLtB (s t : String) : Bool :=
  charListLtB s.data t.data

/-- Insert into a lexicographically ascending list of strings. -/
def insStrAsc (x : String) : List String → List String
  | [] => [x]
  | y :: ys => if strLtB x y then x :: y :: ys else y :: insStrAsc x ys

/-- Sort strings ascending (the vectorizer's `_sort_features`, which orders
the vocabulary alphabetically). -/
def sortStrAsc : List String → List String
  | [] => []
  | x :: xs => insStrAsc x (sortStrAsc xs)

/-- Deduplicate keeping first occurrences (vocabulary collection order). -/
def dedupKeep (l : List String) : List String :=
  l.foldl (fun acc t => if t ∈ acc then acc else acc ++ [t]) []

/-- The countable terms of one document: stop-word-filtered word tokens,
then unigrams plus contiguous bigrams joined by a single space
(`ngram_range=(1, 2)`; the library removes stop words before forming
n-grams). -/
def docTerms (s : String) : List String :=
  let ts := (vectTokens s).filter (fun t => decide (t ∉ englishStopWords))
  ts ++ (List.zipWith (fun a b => a ++ " " ++ b) ts ts.tail)

/-- Document frequency of a term in a batch of term lists. -/
def docFreq (docs : List (List String)) (t : String) : Nat :=
  (docs.filter (fun d => decide (t ∈ d))).length

/-- Total corpus frequency of a term. -/
def corpusFreq (docs : List (List String)) (t : String) : Nat :=
  (docs.map (fun d => d.count t)).sum

/-- Insert into a list descending by a numeric key, in front of the first
key-equal entry, so the sort built on it is stable. -/
def insKeyDesc {α : Type} (key : α → Nat) (x : α) : List α → List α
  | [] => [x]
  | y :: ys => if key y ≤ key x then x :: y :: ys else y :: insKeyDesc key x ys

/-- Stable descending sort by a numeric key.  This models
`sort_values(ascending=False)`: pandas' `nargsort` reverses both the array
before and the indexer after the stable ascending argsort, so the
descending sort is itself stable — entries with equal keys keep their
original relative order. -/
def sortKeyDesc {α : Type} (key : α → Nat) : List α → List α
  | [] => []
  | x :: xs => insKeyDesc key x (sortKeyDesc key xs)

/-- The type `PyErr` — the errors the embedded pipeline can signal.  `valueError`
carries the library message.  `emptyBatchError` is the failure mode named by
the specification; it is included so that statements about it can be made,
but no code path below produces it. -/
inductive PyErr where
  | valueError (msg : String)
  | emptyBatchError
  deriving DecidableEq, Repr

/-- The function `build_count_matrix(titles)`: the `CountVectorizer` fit/transform with
`lowercase=False`, English stop words, `ngram_range=(1,2)`, `min_df=2`,
`max_df=0.7`, `max_features=20000`.  Returns the document-term count matrix
(one row per document) and the alphabetically sorted vocabulary; raises
`ValueError` when no term at all is collected, or when document-frequency
pruning removes every term. -/
def build_count_matrix (titles : List String) :
    Except PyErr (List (List Nat) × List String) :=
  let docs := titles.map docTerms
  let vocab0 := sortStrAsc (dedupKeep docs.flatten)
  if vocab0.isEmpty then
    .error (.valueError "empty vocabulary; perhaps the documents only contain stop words")
  else
    let n := titles.length
    let kept := vocab0.filter
      (fun t => decide (2 ≤ docFreq docs t) && decide (10 * docFreq docs t ≤ 7 * n))
    let kept2 :=
      if kept.length ≤ 20000 then kept
      else
        let ranked := (sortKeyDesc (corpusFreq docs) kept).take 20000
        kept.filter (fun t => decide (t ∈ ranked))
    if kept2.isEmpty then
      .error (.valueError "After pruning, no terms remain. Try a lower min_df or a higher max_df.")
    else
      .ok (docs.map (fun d => kept2.map (fun t => d.count t)), kept2)

/-- One row of the tidy term table: term, count, share. -/
structure TermEntry where
  term : String
  cnt : Nat
  share : ℚ
  deriving DecidableEq, Repr, Inhabited

/-- The result of `summarize_terms`. -/
structure SummarizeOut where
  top_unigrams : List TermEntry
  top_bigrams : List TermEntry
  tidy_all_terms : List (TermEntry × String)
  deriving DecidableEq, Repr

/-- Column sums of the count matrix (`X.sum(axis=0)`), one per vocabulary
entry. -/
def colSums (X : List (List Nat)) (m : Nat) : List Nat :=
  (List.range m).map (fun j => (X.map (fun row => row.getD j 0)).sum)

/-- The share denominator: `int(term_counts.sum()) or 1` — the total count,
floored at 1 when it is zero. -/
def st_total (X : List (List Nat)) (vocab : List String) : Nat :=
  let s := (colSums X vocab.length).sum
  if s = 0 then 1 else s

/-- Does the term contain whitespace (`.str.contains(r"\s")`, the
bigram-plus test)? -/
def hasSpaceT (t : String) : Bool :=
  t.data.any pyIsSpace

/-- The function `summarize_terms(X, vocab, top_n)`: total counts per term sorted
descending (`sort_values(ascending=False)`, a stable descending sort — see
`sortKeyDesc`), shares over the floored total, then the unigram and bigram+
subsets each truncated to `top_n`, plus the tidy table annotated with the
n-gram kind. -/
def summarize_terms (X : List (List Nat)) (vocab : List String)
    (top_n : Nat) : SummarizeOut :=
  let pairs := vocab.zip (colSums X vocab.length)
  let sortedDesc := sortKeyDesc (fun p => p.2) pairs
  let entries : List TermEntry :=
    sortedDesc.map (fun p => ⟨p.1, p.2, (p.2 : ℚ) / (st_total X vocab : ℚ)⟩)
  { top_unigrams := (entries.filter (fun e => !hasSpaceT e.term)).take top_n
    top_bigrams := (entries.filter (fun e => hasSpaceT e.term)).take top_n
    tidy_all_terms :=
      entries.map (fun e => (e, if hasSpaceT e.term then "bigram+" else "unigram")) }

/-! ## The tone scorer (`sentiment_tone.py`) -/

/-- The LM lexicon category sets (`LMLex`), membership lists of upper-cased
words. -/
structure LMLex where
  negative : List String
  uncertainty : List String
  litigious : List String
  constraining : List String
  positive : List String
  deriving DecidableEq, Repr, Inhabited

/-- Per-title LM metrics: the record built by `score_title` inside
`add_lm_metrics` — counts, shares over `max(1, n_tokens)`, and 0/1 flags. -/
structure LMScore where
  lm_tokens : Nat
  lm_neg : Nat
  lm_uncert : Nat
  lm_litig : Nat
  lm_constr : Nat
  lm_pos : Nat
  lm_neg_share : ℚ
  lm_uncert_share : ℚ
  lm_litig_share : ℚ
  lm_constr_share : ℚ
  lm_pos_share : ℚ
  lm_has_neg : Nat
  lm_has_uncert : Nat
  lm_has_litig : Nat
  lm_has_constr : Nat
  lm_has_pos : Nat
  deriving DecidableEq, Repr, Inhabited

/-- The function `score_title(title)` of `add_lm_metrics`: tokenize, floor the token
count at 1, count category members, derive shares and flags. -/
def score_title (lm : LMLex) (title : String) : LMScore :=
  let toks := tokenize_upper title
  let n := max 1 toks.length
  let cNeg := toks.countP (fun t => decide (t ∈ lm.negative))
  let cUnc := toks.countP (fun t => decide (t ∈ lm.uncertainty))
  let cLit := toks.countP (fun t => decide (t ∈ lm.litigious))
  let cCon := toks.countP (fun t => decide (t ∈ lm.constraining))
  let cPos := toks.countP (fun t => decide (t ∈ lm.positive))
  { lm_tokens := n
    lm_neg := cNeg, lm_uncert := cUnc, lm_litig := cLit
    lm_constr := cCon, lm_pos := cPos
    lm_neg_share := (cNeg : ℚ) / (n : ℚ)
    lm_uncert_share := (cUnc : ℚ) / (n : ℚ)
    lm_litig_share := (cLit : ℚ) / (n : ℚ)
    lm_constr_share := (cCon : ℚ) / (n : ℚ)
    lm_pos_share := (cPos : ℚ) / (n : ℚ)
    lm_has_neg := if 0 < cNeg then 1 else 0
    lm_has_uncert := if 0 < cUnc then 1 else 0
    lm_has_litig := if 0 < cLit then 1 else 0
    lm_has_constr := if 0 < cCon then 1 else 0
    lm_has_pos := if 0 < cPos then 1 else 0 }

/-- The four VADER polarity outputs (`polarity_scores`); the analyzer itself
is external and is passed into the pipeline as a function. -/
structure VaderScores where
  neg : ℚ
  neu : ℚ
  pos : ℚ
  compound : ℚ
  deriving DecidableEq, Repr, Inhabited

/-- One row of the scored frame produced by `add_lm_and_vader`: the title
with its LM metrics and VADER scores. -/
structure ScoredRow where
  title : String
  lms : LMScore
  vader : VaderScores
  deriving DecidableEq, Repr, Inhabited

/-- Score one title (one row of `add_lm_and_vader`'s output). -/
def scoreRowOf (lm : LMLex) (vader : String → VaderScores) (t : String) :
    ScoredRow :=
  ⟨t, score_title lm t, vader t⟩

/-- The five LM lexicon categories. -/
inductive Category where
  | negative
  | uncertainty
  | litigious
  | constraining
  | positive
  deriving DecidableEq, Repr

/-- The per-category count column (`lm_neg`, `lm_uncert`, `lm_litig`,
`lm_constr`, `lm_pos`). -/
def catCount (c : Category) (r : ScoredRow) : Nat :=
  match c with
  | .negative => r.lms.lm_neg
  | .uncertainty => r.lms.lm_uncert
  | .litigious => r.lms.lm_litig
  | .constraining => r.lms.lm_constr
  | .positive => r.lms.lm_pos

/-- The per-category share column. -/
def catShare (c : Category) (r : ScoredRow) : ℚ :=
  match c with
  | .negative => r.lms.lm_neg_share
  | .uncertainty => r.lms.lm_uncert_share
  | .litigious => r.lms.lm_litig_share
  | .constraining => r.lms.lm_constr_share
  | .positive => r.lms.lm_pos_share

/-- The per-category 0/1 flag column (`lm_has_*`). -/
def catHas (c : Category) (r : ScoredRow) : Nat :=
  match c with
  | .negative => r.lms.lm_has_neg
  | .uncertainty => r.lms.lm_has_uncert
  | .litigious => r.lms.lm_has_litig
  | .constraining => r.lms.lm_has_constr
  | .positive => r.lms.lm_has_pos

/-! ## The daily aggregator (`main_scraper.py`, analysis stage) -/

/-- pandas `Series.idxmax` over a 0-based range index: the position of the
first occurrence of the maximum (`none` on an empty series, where pandas
raises). -/
def idxmaxList : List Nat → Option Nat
  | [] => none
  | x :: xs =>
    match idxmaxList xs with
    | none => some 0
    | some j => if xs.getD j 0 > x then some (j + 1) else some 0

/-- The function `scored.loc[scored[col].idxmax()]` for a category-count column: the
first row attaining the maximal category count. -/
def extremalRow (c : Category) (scored : List ScoredRow) : Option ScoredRow :=
  (idxmaxList (scored.map (catCount c))).bind (fun i => scored[i]?)

/-- Arithmetic mean of a list of rationals (`Series.mean` on a nonempty
numeric column). -/
def meanQ (l : List ℚ) : ℚ :=
  l.sum / (l.length : ℚ)

/-- The expression `float(scored["lm_has_*"].mean()) * 100.0` — the percentage of headlines
with at least one token of the category. -/
def pctHasAny (c : Category) (scored : List ScoredRow) : ℚ :=
  meanQ (scored.map (fun r => (catHas c r : ℚ))) * 100

/-- The expression `float(scored["lm_*_share"].mean())` — the mean per-headline token
share of the category. -/
def meanShareQ (c : Category) (scored : List ScoredRow) : ℚ :=
  meanQ (scored.map (catShare c))

/-- The expression `float(scored["vader_compound"].mean())`. -/
def vaderMeanQ (scored : List ScoredRow) : ℚ :=
  meanQ (scored.map (fun r => r.vader.compound))

/-- The distribution entries of the summary record, in the order the code
stores them (`vader_mean`, the three `head_w_*` percentages — only
negative, uncertainty and positive — and the five `*_share_of_tok`
means). -/
def toneEntries (scored : List ScoredRow) : List (String × ℚ) :=
  [("vader_mean", vaderMeanQ scored),
   ("head_w_neg", pctHasAny .negative scored),
   ("head_w_unc", pctHasAny .uncertainty scored),
   ("head_w_pos", pctHasAny .positive scored),
   ("neg_share_of_tok", meanShareQ .negative scored),
   ("pos_share_of_tok", meanShareQ .positive scored),
   ("unc_share_of_tok", meanShareQ .uncertainty scored),
   ("litig_share_of_tok", meanShareQ .litigious scored),
   ("constr_share_of_tok", meanShareQ .constraining scored)]

/-- A value stored in the summary record (`store_data` is a Python dict
with string keys): a string, a number, or a term/count table. -/
inductive PyVal where
  | vstr (v : String)
  | vnum (v : ℚ)
  | vtable (rows : List (String × Nat))
  deriving DecidableEq, Repr

/-- A raw scraped headline record (the fields `keyword_frequency` loads into
its frame, plus `source`). -/
structure RawRecord where
  date : String
  title : String
  url : String
  source : String
  deriving DecidableEq, Repr, Inhabited

/-- The survivors of the blank-title filter
`df[df["title"].astype(str).str.strip().ne("")]` of `keyword_frequency`. -/
def kf_surviving (records : List RawRecord) : List RawRecord :=
  records.filter (fun r => decide (pyStripStr r.title ≠ ""))

/-- The normalized titles `keyword_frequency` hands to the vectorizer. -/
def kf_titles (records : List RawRecord) : List String :=
  (kf_surviving records).map (fun r => normalize_title r.title)

/-- The result of `keyword_frequency`. -/
structure KFOut where
  top_unigrams : List TermEntry
  top_bigrams : List TermEntry
  tidy_all_terms : List (TermEntry × String)
  df : List RawRecord
  deriving DecidableEq, Repr

/-- The function `keyword_frequency(records, top_n)`: drop blank-title records, normalize
titles, vectorize, summarize. -/
def keyword_frequency (records : List RawRecord) (top_n : Nat) :
    Except PyErr KFOut :=
  match build_count_matrix (kf_titles records) with
  | .error e => .error e
  | .ok (X, vocab) =>
    let s := summarize_terms X vocab top_n
    .ok ⟨s.top_unigrams, s.top_bigrams, s.tidy_all_terms, kf_surviving records⟩

/-- The top-10 slice the aggregator persists:
`df.sort_values("count", ascending=False).head(n)` applied to a top table
(same sorting model as `summarize_terms`). -/
def resortTop (l : List TermEntry) (n : Nat) : List TermEntry :=
  (sortKeyDesc (fun e => e.cnt) l).take n

/-- The scored frame of the aggregator's tone stage:
`add_lm_and_vader(pd.DataFrame(full_news, columns=["title"]))` — every
record of `full_news` is scored (no blank-title filtering here). -/
def tone_scored_batch (lm : LMLex) (vader : String → VaderScores)
    (full_news : List RawRecord) : List ScoredRow :=
  full_news.map (fun r => scoreRowOf lm vader r.title)

/-- The per-category token counters of `top_lm_terms`: a token counts once
per occurrence, keys in first-occurrence order (Python `Counter`
insertion order). -/
def bumpCount (l : List (String × Nat)) (t : String) : List (String × Nat) :=
  if l.any (fun p => p.1 = t) then
    l.map (fun p => if p.1 = t then (p.1, p.2 + 1) else p)
  else l ++ [(t, 1)]

/-- The set list of one category. -/
def catSet (lm : LMLex) (c : Category) : List String :=
  match c with
  | .negative => lm.negative
  | .uncertainty => lm.uncertainty
  | .litigious => lm.litigious
  | .constraining => lm.constraining
  | .positive => lm.positive

/-- The function `top_lm_terms(df_scored, lm, top_n)` for one category: count the
lexicon tokens over all titles, sort descending
(`pd.Series(counter).sort_values(ascending=False)`, same sorting model) and
truncate. -/
def top_lm_terms (scored : List ScoredRow) (lm : LMLex) (top_n : Nat)
    (c : Category) : List (String × Nat) :=
  let counter := scored.foldl
    (fun acc r =>
      ((tokenize_upper r.title).filter (fun t => decide (t ∈ catSet lm c))).foldl
        bumpCount acc)
    []
  (sortKeyDesc (fun p => p.2) counter).take top_n

/-- The analysis stage of `get_news_and_analyze` (`main_scraper.py`): given
the collected records `full_news`, the day string (the code reads the
clock), the LM lexicon (the code loads it from the bundled CSV, twice) and
the VADER scorer (external, modelled as a pure function), build the summary
record `store_data` in the order the code stores its keys, or fail with the
error of the first failing stage. -/
def get_news_and_analyze (today : String) (lm : LMLex)
    (vader : String → VaderScores) (full_news : List RawRecord) :
    Except PyErr (List (String × PyVal)) :=
  match keyword_frequency full_news 30 with
  | .error e => .error e
  | .ok kf =>
    let topU := resortTop kf.top_unigrams 10
    let topB := resortTop kf.top_bigrams 10
    let scored := tone_scored_batch lm vader full_news
    match extremalRow .negative scored, extremalRow .positive scored,
          extremalRow .uncertainty scored, extremalRow .litigious scored,
          extremalRow .constraining scored with
    | some mn, some mp, some mu, some ml, some mc =>
      .ok ([("date", .vstr today),
            ("top_unigrams", .vtable (topU.map (fun e => (e.term, e.cnt)))),
            ("top_bigrams", .vtable (topB.map (fun e => (e.term, e.cnt)))),
            ("most_negative", .vstr mn.title),
            ("most_negative_lm_score", .vnum (mn.lms.lm_neg : ℚ)),
            ("most_negative_vader_score", .vnum mn.vader.compound),
            ("most_positive", .vstr mp.title),
            ("most_positive_lm_score", .vnum (mp.lms.lm_pos : ℚ)),
            ("most_positive_vader_score", .vnum mp.vader.compound),
            ("most_uncertain", .vstr mu.title),
            ("most_uncertain_lm_score", .vnum (mu.lms.lm_uncert : ℚ)),
            ("most_uncertain_vader_score", .vnum mu.vader.compound),
            ("most_litigious", .vstr ml.title),
            ("most_litigious_lm_score", .vnum (ml.lms.lm_litig : ℚ)),
            ("most_litigious_vader_score", .vnum ml.vader.compound),
            ("most_constraining", .vstr mc.title),
            ("most_constraining_lm_score", .vnum (mc.lms.lm_constr : ℚ)),
            ("most_constraining_vader_score", .vnum mc.vader.compound)]
           ++ (toneEntries scored).map (fun p => (p.1, PyVal.vnum p.2))
           ++ [("top_lm_negative", .vtable ((top_lm_terms scored lm 25 .negative).take 10)),
               ("top_lm_positive", .vtable ((top_lm_terms scored lm 25 .positive).take 10))])
    | _, _, _, _, _ =>
      .error (.valueError "attempt to get argmax of an empty sequence")

/-! ## Python-level totality of `tokenize_upper` (`sentiment_tone.py`)

`tokenize_upper` begins with `if not isinstance(s, str): s = "" if s is None
else str(s)`, so it accepts arbitrary Python values. -/

/-- A Python value as it can reach `tokenize_upper`. -/
inductive PyObj where
  | pyNone
  | pyStr (s : String)
  | pyInt (n : ℤ)
  | pyBool (b : Bool)
  deriving DecidableEq, Repr

/-- Python `str(value)` on the modelled values. -/
def pyReprOf : PyObj → String
  | .pyNone => "None"
  | .pyStr s => s
  | .pyInt n => toString n
  | .pyBool true => "True"
  | .pyBool false => "False"

/-- The function `tokenize_upper` on an arbitrary Python value: a string is tokenized
directly; `None` becomes the empty string; any other value is tokenized via
`str(value)`. -/
def tokenize_upper_any : PyObj → List String
  | .pyStr s => tokenize_upper s
  | .pyNone => tokenize_upper ""
  | v => tokenize_upper (pyReprOf v)

/-- The coercion described by the claim: `None` to the empty string, any
other non-string value to `str(value)`. -/
def coerce_to_str : PyObj → String
  | .pyNone => ""
  | .pyStr s => s
  | v => pyReprOf v

/-! ## Shared concrete sample data for witnesses and counterexamples -/

/-- A small concrete lexicon (LM-style upper-cased members). -/
def lexSample : LMLex :=
  ⟨["LOSS"], ["UNCERTAINTY"], ["LAWSUIT"], ["LIMIT"], ["GAIN"]⟩

/-- A concrete polarity scorer assigning every title the neutral score. -/
def vaderZero : String → VaderScores :=
  fun _ => ⟨0, 1, 0, 0⟩

/-- A concrete batch with one usable and one whitespace-only title. -/
def batchC4 : List RawRecord :=
  [⟨"2026-10-12", "Fed hikes rates", "u1", ""⟩,
   ⟨"2026-10-12", "   ", "u2", ""⟩]

/-- A concrete scored batch whose single headline has a litigious token. -/
def scoredC9 : List ScoredRow :=
  [scoreRowOf lexSample vaderZero "Lawsuit"]

/-! ## Shared helper lemmas -/

/-- The function `build_count_matrix` on the empty batch stops with the vectorizer's
empty-vocabulary `ValueError`. -/
lemma bcm_nil :
    build_count_matrix [] =
      .error (.valueError "empty vocabulary; perhaps the documents only contain stop words") :=
  rfl

/-! ## C10 -/

/-- C10: `tokenize_upper` is total over arbitrary Python input, not only
strings: a non-string argument is coerced (`None` to the empty string, any
other value to `str(value)`) and tokenized without raising, so
`tokenize_upper(None)` returns the empty list. -/
theorem tokenize_upper_total_over_pyobj :
    tokenize_upper_any PyObj.pyNone = [] ∧
    ∀ v : PyObj, tokenize_upper_any v = tokenize_upper (coerce_to_str v) := by
  constructor
  · rfl
  · intro v
    cases v with
    | pyBool b => cases b <;> rfl
    | pyNone => rfl
    | pyStr s => rfl
    | pyInt n => rfl

/-! ## C8 -/

/-- C8: the tone scorer computes each category share as count divided by
`n = max(1, number of tokens)`; the denominator is at least 1, and a title
with zero tokens yields all five category shares equal to 0. -/
theorem score_title_share_guard (lm : LMLex) (title : String) :
    (score_title lm title).lm_tokens = max 1 (tokenize_upper title).length ∧
    1 ≤ (score_title lm title).lm_tokens ∧
    ((score_title lm title).lm_neg_share =
        ((score_title lm title).lm_neg : ℚ) / ((score_title lm title).lm_tokens : ℚ) ∧
     (score_title lm title).lm_uncert_share =
        ((score_title lm title).lm_uncert : ℚ) / ((score_title lm title).lm_tokens : ℚ) ∧
     (score_title lm title).lm_litig_share =
        ((score_title lm title).lm_litig : ℚ) / ((score_title lm title).lm_tokens : ℚ) ∧
     (score_title lm title).lm_constr_share =
        ((score_title lm title).lm_constr : ℚ) / ((score_title lm title).lm_tokens : ℚ) ∧
     (score_title lm title).lm_pos_share =
        ((score_title lm title).lm_pos : ℚ) / ((score_title lm title).lm_tokens : ℚ)) ∧
    (tokenize_upper title = [] →
      (score_title lm title).lm_neg_share = 0 ∧
      (score_title lm title).lm_uncert_share = 0 ∧
      (score_title lm title).lm_litig_share = 0 ∧
      (score_title lm title).lm_constr_share = 0 ∧
      (score_title lm title).lm_pos_share = 0) := by
  refine ⟨rfl, Nat.le_max_left 1 _, ⟨rfl, rfl, rfl, rfl, rfl⟩, fun h => ?_⟩
  simp [score_title, h]

/-- C8 witness: a concrete title whose only alphanumeric runs are shorter
than two characters tokenizes to the empty list and gets zero shares. -/
theorem score_title_share_guard_witness :
    tokenize_upper "a !" = [] ∧
    (score_title lexSample "a !").lm_neg_share = 0 ∧
    (score_title lexSample "a !").lm_uncert_share = 0 ∧
    (score_title lexSample "a !").lm_litig_share = 0 ∧
    (score_title lexSample "a !").lm_constr_share = 0 ∧
    (score_title lexSample "a !").lm_pos_share = 0 := by
  have h := (score_title_share_guard lexSample "a !").2.2.2 (by decide)
  exact ⟨by decide, h.1, h.2.1, h.2.2.1, h.2.2.2.1, h.2.2.2.2⟩

/-! ## C3 -/

/-- C3 counterexample: on the empty batch of normalized titles the
vectorizer raises a `ValueError` — the stage does not return empty tables
without an error. -/
theorem build_count_matrix_empty_batch_raises :
    build_count_matrix [] =
      .error (.valueError "empty vocabulary; perhaps the documents only contain stop words") :=
  bcm_nil

/-- C3 amended: `build_count_matrix` on the empty batch raises the
vectorizer's empty-vocabulary `ValueError`; `summarize_terms` applied
directly to an empty matrix and vocabulary returns an empty term table and
empty top lists, with the share denominator floored at 1. -/
theorem empty_batch_engine_behavior :
    build_count_matrix [] =
      .error (.valueError "empty vocabulary; perhaps the documents only contain stop words") ∧
    (∀ top_n, summarize_terms [] [] top_n = ⟨[], [], []⟩) ∧
    st_total [] [] = 1 := by
  refine ⟨bcm_nil, fun top_n => ?_, rfl⟩
  simp [summarize_terms, colSums, sortKeyDesc]

/-! ## C9 -/

/-- C9 counterexample: in a concrete aggregator tone stage, the litigious
percent-of-headlines metric is 100, but no entry of the stored distribution
block carries the value 100 (the code stores `head_w_*` only for negative,
uncertainty and positive). -/
theorem tone_summary_litigious_pct_missing :
    pctHasAny Category.litigious scoredC9 = 100 ∧
    (toneEntries scoredC9).map Prod.snd = [0, 0, 0, 0, 0, 0, 0, 1, 0] ∧
    (100 : ℚ) ∉ [(0 : ℚ), 0, 0, 0, 0, 0, 0, 1, 0] := by
  have r : scoredC9 = [scoreRowOf lexSample vaderZero "Lawsuit"] := rfl
  have hhas : ∀ c, catHas c (scoreRowOf lexSample vaderZero "Lawsuit") =
      (if c = Category.litigious then 1 else 0) := by
    intro c; cases c <;> decide
  have hcnt : ∀ c, catCount c (scoreRowOf lexSample vaderZero "Lawsuit") =
      (if c = Category.litigious then 1 else 0) := by
    intro c; cases c <;> decide
  have htok : (score_title lexSample "Lawsuit").lm_tokens = 1 := by decide
  have hshare : ∀ c, catShare c (scoreRowOf lexSample vaderZero "Lawsuit") =
      ((catCount c (scoreRowOf lexSample vaderZero "Lawsuit") : ℚ) /
        ((score_title lexSample "Lawsuit").lm_tokens : ℚ)) := by
    intro c; cases c <;> rfl
  have hvad : (scoreRowOf lexSample vaderZero "Lawsuit").vader.compound = 0 := rfl
  refine ⟨?_, ?_, by norm_num⟩
  · simp only [pctHasAny, r, List.map_cons, List.map_nil, meanQ, hhas]
    norm_num
  · simp only [toneEntries, List.map_cons, List.map_nil, vaderMeanQ,
      pctHasAny, meanShareQ, meanQ, r, hhas, hshare, hcnt, htok, hvad]
    norm_num
    decide

/-- C9 amended: the stored distribution block contains the mean polarity
compound, the percent-of-headlines-with-`has_any` metric for the negative,
uncertainty and positive categories (but not for litigious or
constraining), and the mean per-headline token-share metric for all five
categories. -/
theorem tone_summary_metric_coverage (scored : List ScoredRow) :
    ("vader_mean", vaderMeanQ scored) ∈ toneEntries scored ∧
    ("head_w_neg", pctHasAny .negative scored) ∈ toneEntries scored ∧
    ("head_w_unc", pctHasAny .uncertainty scored) ∈ toneEntries scored ∧
    ("head_w_pos", pctHasAny .positive scored) ∈ toneEntries scored ∧
    ("neg_share_of_tok", meanShareQ .negative scored) ∈ toneEntries scored ∧
    ("pos_share_of_tok", meanShareQ .positive scored) ∈ toneEntries scored ∧
    ("unc_share_of_tok", meanShareQ .uncertainty scored) ∈ toneEntries scored ∧
    ("litig_share_of_tok", meanShareQ .litigious scored) ∈ toneEntries scored ∧
    ("constr_share_of_tok", meanShareQ .constraining scored) ∈ toneEntries scored := by
  refine ⟨?_, ?_, ?_, ?_, ?_, ?_, ?_, ?_, ?_⟩ <;> simp [toneEntries]

/-! ## C4 -/

/-- C4 counterexample: a whitespace-only title is dropped before the
term-frequency engine but still reaches the tone scorer — the tone-scored
titles are not the surviving non-blank titles. -/
theorem blank_title_reaches_tone_scorer :
    (tone_scored_batch lexSample vaderZero batchC4).map ScoredRow.title ≠
      (kf_surviving batchC4).map RawRecord.title ∧
    ((tone_scored_batch lexSample vaderZero batchC4).any
      (fun r => decide (pyStripStr r.title = ""))) = true := by
  exact ⟨by decide, by decide⟩

/-- C4 amended: blank-title records are dropped before the term-frequency
engine only (its input titles are the normalized survivors, all of them
non-blank after stripping); the tone scorer receives every record of the
input batch, blank titles included. -/
theorem filter_only_before_term_frequency (lm : LMLex)
    (vader : String → VaderScores) (records : List RawRecord) :
    kf_titles records = (kf_surviving records).map (fun r => normalize_title r.title) ∧
    ((kf_surviving records).all (fun r => decide (pyStripStr r.title ≠ ""))) = true ∧
    (tone_scored_batch lm vader records).map ScoredRow.title =
      records.map RawRecord.title ∧
    (tone_scored_batch lm vader records).length = records.length := by
  refine ⟨rfl, ?_, ?_, by simp [tone_scored_batch]⟩
  · rw [List.all_eq_true]
    intro r hr
    simp only [kf_surviving] at hr
    exact (List.mem_filter.mp hr).2
  · simp [tone_scored_batch, scoreRowOf]

/-! ## C1 -/

/-- C1 counterexample: on an input batch that is empty after filtering the
aggregation fails with the vectorizer's generic `ValueError`, which is not
an `EmptyBatchError` (no code path produces one). -/
theorem aggregator_empty_error_is_not_empty_batch_error :
    get_news_and_analyze "2026-10-12" lexSample vaderZero [] =
      .error (.valueError "empty vocabulary; perhaps the documents only contain stop words") ∧
    PyErr.valueError "empty vocabulary; perhaps the documents only contain stop words" ≠
      PyErr.emptyBatchError := by
  exact ⟨rfl, by decide⟩

/-- C1 amended: for every input batch that is empty after dropping blank
titles, the aggregation fails — before any extremal selection — with the
vectorizer's empty-vocabulary `ValueError` (not with an
`EmptyBatchError`, which the code never defines or raises). -/
theorem aggregator_empty_filtered_raises_value_error (today : String)
    (lm : LMLex) (vader : String → VaderScores) (records : List RawRecord)
    (h : kf_surviving records = []) :
    get_news_and_analyze today lm vader records =
      .error (.valueError "empty vocabulary; perhaps the documents only contain stop words") := by
  have ht : kf_titles records = [] := by simp [kf_titles, h]
  have hk : keyword_frequency records 30 =
      .error (.valueError "empty vocabulary; perhaps the documents only contain stop words") := by
    simp only [keyword_frequency, ht, bcm_nil]
  simp only [get_news_and_analyze, hk]

/-- C1 witness: a batch whose only record has a whitespace-only title is
empty after filtering, and the aggregation fails with the `ValueError`. -/
theorem aggregator_empty_filtered_witness :
    get_news_and_analyze "2026-10-12" lexSample vaderZero [⟨"d", " ", "u", ""⟩] =
      .error (.valueError "empty vocabulary; perhaps the documents only contain stop words") :=
  aggregator_empty_filtered_raises_value_error "2026-10-12" lexSample vaderZero
    [⟨"d", " ", "u", ""⟩] (by decide)

/-! ## C5 -/

/-- The function `idxmaxList` never fails on a nonempty list and returns the position of
the first occurrence of the maximum. -/
lemma idxmaxList_spec : ∀ l : List Nat, l ≠ [] →
    ∃ i, idxmaxList l = some i ∧ i < l.length ∧
      (∀ k, k < l.length → l.getD k 0 ≤ l.getD i 0) ∧
      (∀ k, k < i → l.getD k 0 < l.getD i 0) := by
  intro l
  induction l with
  | nil => intro h; exact absurd rfl h
  | cons x xs ih =>
    intro _
    by_cases hxs : xs = []
    · subst hxs
      refine ⟨0, rfl, by simp, ?_, ?_⟩
      · intro k hk
        have hk0 : k = 0 := Nat.lt_one_iff.mp (by simpa using hk)
        subst hk0
        exact le_refl _
      · intro k hk; exact absurd hk (Nat.not_lt_zero k)
    · obtain ⟨j, hj, hjlen, hmax, hfirst⟩ := ih hxs
      have hxj : idxmaxList (x :: xs) =
          if xs.getD j 0 > x then some (j + 1) else some 0 := by
        simp [idxmaxList, hj]
      by_cases hgt : xs.getD j 0 > x
      · refine ⟨j + 1, by rw [hxj, if_pos hgt], by simpa using hjlen, ?_, ?_⟩
        · intro k hk
          cases k with
          | zero => simpa using le_of_lt hgt
          | succ k =>
            simp only [List.getD_cons_succ]
            exact hmax k (by simpa using hk)
        · intro k hk
          cases k with
          | zero => simpa using hgt
          | succ k =>
            simp only [List.getD_cons_succ]
            exact hfirst k (Nat.lt_of_succ_lt_succ hk)
      · refine ⟨0, by rw [hxj, if_neg hgt], Nat.succ_pos _, ?_, ?_⟩
        · intro k hk
          cases k with
          | zero => exact le_refl _
          | succ k =>
            simp only [List.getD_cons_succ, List.getD_cons_zero]
            exact le_trans (hmax k (by simpa using hk)) (not_lt.mp hgt)
        · intro k hk; exact absurd hk (Nat.not_lt_zero k)

/-- Evaluate `getD` through `map` at an in-range index. -/
lemma getD_map_of_lt {α β : Type} [Inhabited α] (f : α → β) (l : List α)
    (k : Nat) (d : β) (h : k < l.length) :
    (l.map f).getD k d = f (l.getD k default) := by
  rw [List.getD_eq_getElem?_getD, List.getElem?_map,
    List.getElem?_eq_getElem h, List.getD_eq_getElem l default h]
  rfl

/-- C5: for a nonempty scored batch and each lexicon category, the
aggregator's extremal selection (`idxmax` over the category-count column)
returns a row whose category count is maximal, and every strictly earlier
row has a strictly smaller count (first occurrence wins ties). -/
theorem extremal_selects_first_max (c : Category) (scored : List ScoredRow)
    (h : scored ≠ []) :
    ∃ i, i < scored.length ∧
      extremalRow c scored = some (scored.getD i default) ∧
      (∀ k, k < scored.length →
        catCount c (scored.getD k default) ≤ catCount c (scored.getD i default)) ∧
      (∀ k, k < i →
        catCount c (scored.getD k default) < catCount c (scored.getD i default)) := by
  have hm : scored.map (catCount c) ≠ [] := by
    simpa using h
  obtain ⟨i, hidx, hlen, hmax, hfirst⟩ := idxmaxList_spec _ hm
  have hlen' : i < scored.length := by simpa using hlen
  have hbr : ∀ k, k < scored.length →
      (scored.map (catCount c)).getD k 0 = catCount c (scored.getD k default) := by
    intro k hk
    exact getD_map_of_lt (catCount c) scored k 0 hk
  refine ⟨i, hlen', ?_, ?_, ?_⟩
  · simp only [extremalRow, hidx, Option.some_bind]
    rw [List.getElem?_eq_getElem hlen', List.getD_eq_getElem scored default hlen']
  · intro k hk
    have := hmax k (by simpa using hk)
    rwa [hbr k hk, hbr i hlen'] at this
  · intro k hk
    have := hfirst k hk
    rwa [hbr k (lt_trans hk hlen'), hbr i hlen'] at this

/-- A concrete scored batch: the second row is the unique negative one. -/
def scoredW : List ScoredRow :=
  [scoreRowOf lexSample vaderZero "Markets rally",
   scoreRowOf lexSample vaderZero "Heavy loss hits"]

/-- C5 witness: the extremal selection on a concrete nonempty batch. -/
theorem extremal_selects_first_max_witness :
    ∃ i, i < scoredW.length ∧
      extremalRow Category.negative scoredW = some (scoredW.getD i default) ∧
      (∀ k, k < scoredW.length →
        catCount Category.negative (scoredW.getD k default) ≤
          catCount Category.negative (scoredW.getD i default)) ∧
      (∀ k, k < i →
        catCount Category.negative (scoredW.getD k default) <
          catCount Category.negative (scoredW.getD i default)) :=
  extremal_selects_first_max Category.negative scoredW (by simp [scoredW])

/-! ## C7 -/

/-- Inserting with `insKeyDesc` permutes the cons. -/
lemma insKeyDesc_perm {α : Type} (key : α → Nat) (x : α) :
    ∀ l : List α, (insKeyDesc key x l).Perm (x :: l) := by
  intro l
  induction l with
  | nil => exact List.Perm.refl _
  | cons y ys ih =>
    simp only [insKeyDesc]
    split
    · exact List.Perm.refl _
    · exact (ih.cons y).trans (List.Perm.swap x y ys)

/-- The function `sortKeyDesc` permutes its input. -/
lemma sortKeyDesc_perm {α : Type} (key : α → Nat) :
    ∀ l : List α, (sortKeyDesc key l).Perm l := by
  intro l
  induction l with
  | nil => exact List.Perm.refl _
  | cons x xs ih =>
    exact (insKeyDesc_perm key x (sortKeyDesc key xs)).trans (ih.cons x)

/-- Divide a sum termwise. -/
lemma sum_map_div {α : Type} (l : List α) (f : α → ℚ) (d : ℚ) :
    (l.map (fun a => f a / d)).sum = (l.map f).sum / d := by
  induction l with
  | nil => simp
  | cons a l ih => simp [ih, add_div]

/-- The function `colSums` has one entry per vocabulary position. -/
lemma colSums_length (X : List (List Nat)) (m : Nat) :
    (colSums X m).length = m := by
  simp [colSums]

/-- C7: for a term table whose total count is positive (every table produced
from a vectorizer output, where each vocabulary term occurs at least once),
the shares over the entire tidy table sum to exactly 1, hence within 1e-6 of
1. -/
theorem share_sum_full_table (X : List (List Nat)) (vocab : List String)
    (top_n : Nat) (h : 0 < (colSums X vocab.length).sum) :
    |((summarize_terms X vocab top_n).tidy_all_terms.map
        (fun p => p.1.share)).sum - 1| ≤ 1 / 1000000 := by
  have htot : st_total X vocab = (colSums X vocab.length).sum := by
    simp only [st_total]
    rw [if_neg (Nat.pos_iff_ne_zero.mp h)]
  have hs : ((summarize_terms X vocab top_n).tidy_all_terms.map
      (fun p => p.1.share)).sum = 1 := by
    simp only [summarize_terms, List.map_map]
    have hcomp :
        (fun p : TermEntry × String => p.1.share) ∘
          (fun e : TermEntry => (e, if hasSpaceT e.term then "bigram+" else "unigram")) ∘
          (fun p : String × Nat =>
            (⟨p.1, p.2, (p.2 : ℚ) / (st_total X vocab : ℚ)⟩ : TermEntry)) =
          fun p : String × Nat => (p.2 : ℚ) / (st_total X vocab : ℚ) := by
      funext p; rfl
    rw [hcomp]
    rw [List.Perm.sum_eq (List.Perm.map
      (fun p : String × Nat => (p.2 : ℚ) / (st_total X vocab : ℚ))
      (sortKeyDesc_perm (fun p : String × Nat => p.2)
        (vocab.zip (colSums X vocab.length))))]
    rw [sum_map_div]
    have hsnd : (vocab.zip (colSums X vocab.length)).map
        (fun p : String × Nat => (p.2 : ℚ)) =
        (colSums X vocab.length).map Nat.cast := by
      have := List.map_snd_zip vocab (colSums X vocab.length)
        (le_of_eq (colSums_length X vocab.length))
      calc (vocab.zip (colSums X vocab.length)).map
            (fun p : String × Nat => (p.2 : ℚ))
          = ((vocab.zip (colSums X vocab.length)).map Prod.snd).map Nat.cast := by
            rw [List.map_map]; rfl
        _ = (colSums X vocab.length).map Nat.cast := by rw [this]
    rw [hsnd, ← Nat.cast_list_sum, htot]
    exact div_self (Nat.cast_ne_zero.mpr (Nat.pos_iff_ne_zero.mp h))
  rw [hs]
  norm_num

/-- C7 witness: a concrete one-document table with total count 3. -/
theorem share_sum_full_table_witness :
    |((summarize_terms [[1, 2]] ["aa", "bb"] 30).tidy_all_terms.map
        (fun p => p.1.share)).sum - 1| ≤ 1 / 1000000 :=
  share_sum_full_table [[1, 2]] ["aa", "bb"] 30 (by decide)

/-! ## C6 -/

/-- The function `insKeyDesc` keeps the list sorted (weakly descending by
key). -/
lemma insKeyDesc_pairwise_ge {α : Type} (key : α → Nat) (x : α) :
    ∀ l : List α, List.Pairwise (fun a b => key b ≤ key a) l →
      List.Pairwise (fun a b => key b ≤ key a) (insKeyDesc key x l) := by
  intro l
  induction l with
  | nil => intro _; exact List.pairwise_singleton _ _
  | cons y ys ih =>
    intro h
    rw [List.pairwise_cons] at h
    simp only [insKeyDesc]
    split
    · rename_i hle
      rw [List.pairwise_cons]
      refine ⟨?_, List.pairwise_cons.mpr h⟩
      intro z hz
      rcases List.mem_cons.mp hz with hz | hz
      · rw [hz]; exact hle
      · exact le_trans (h.1 z hz) hle
    · rename_i hgt
      rw [List.pairwise_cons]
      refine ⟨?_, ih h.2⟩
      intro z hz
      rcases List.mem_cons.mp ((insKeyDesc_perm key x ys).mem_iff.mp hz) with hz | hz
      · rw [hz]; exact le_of_lt (lt_of_not_le hgt)
      · exact h.1 z hz

/-- The function `sortKeyDesc` sorts weakly descending by key. -/
lemma sortKeyDesc_pairwise_ge {α : Type} (key : α → Nat) :
    ∀ l : List α,
      List.Pairwise (fun a b => key b ≤ key a) (sortKeyDesc key l) := by
  intro l
  induction l with
  | nil => simp [sortKeyDesc]
  | cons x xs ih => exact insKeyDesc_pairwise_ge key x _ ih

/-- The function `insKeyDesc` preserves any tie relation that holds from the
inserted element to every list element: pairs with distinct keys may be
reordered (where the relation is vacuous), key-equal pairs keep their
order (the inserted element goes in front of key-equal entries, as it
preceded them in the input). -/
lemma insKeyDesc_pairwise_tie {α : Type} (key : α → Nat) (S : α → α → Prop)
    (x : α) :
    ∀ l : List α,
      List.Pairwise (fun a b => key a = key b → S a b) l →
      (∀ y ∈ l, key x = key y → S x y) →
      List.Pairwise (fun a b => key a = key b → S a b) (insKeyDesc key x l) := by
  intro l
  induction l with
  | nil => intro _ _; exact List.pairwise_singleton _ _
  | cons y ys ih =>
    intro h hx
    rw [List.pairwise_cons] at h
    simp only [insKeyDesc]
    split
    · rw [List.pairwise_cons]
      exact ⟨fun z hz => hx z hz, List.pairwise_cons.mpr h⟩
    · rename_i hgt
      rw [List.pairwise_cons]
      refine ⟨?_, ih h.2 (fun z hz => hx z (List.mem_cons_of_mem y hz))⟩
      intro z hz heq
      rcases List.mem_cons.mp ((insKeyDesc_perm key x ys).mem_iff.mp hz) with hz | hz
      · rw [hz] at heq
        exact absurd heq.symm (ne_of_lt (lt_of_not_le hgt))
      · exact h.1 z hz heq

/-- The function `sortKeyDesc` is stable: a tie relation holding pairwise on
the input holds pairwise on the sorted output. -/
lemma sortKeyDesc_pairwise_tie {α : Type} (key : α → Nat) (S : α → α → Prop) :
    ∀ l : List α,
      List.Pairwise (fun a b => key a = key b → S a b) l →
      List.Pairwise (fun a b => key a = key b → S a b) (sortKeyDesc key l) := by
  intro l
  induction l with
  | nil => intro _; simp [sortKeyDesc]
  | cons x xs ih =>
    intro h
    rw [List.pairwise_cons] at h
    refine insKeyDesc_pairwise_tie key S x _ (ih h.2) ?_
    intro y hy
    exact h.1 y ((sortKeyDesc_perm key xs).mem_iff.mp hy)

/-- A pairwise relation on the left list transfers to its zip. -/
lemma pairwise_zip_left {α β : Type} (S : α → α → Prop) :
    ∀ (l1 : List α) (l2 : List β), List.Pairwise S l1 →
      List.Pairwise (fun a b => S a.1 b.1) (l1.zip l2) := by
  intro l1
  induction l1 with
  | nil => intro l2 _; simp
  | cons a as ih =>
    intro l2 h
    cases l2 with
    | nil => simp
    | cons b bs =>
      rw [List.pairwise_cons] at h
      rw [List.zip_cons_cons, List.pairwise_cons]
      refine ⟨?_, ih bs h.2⟩
      intro z hz
      obtain ⟨z1, z2⟩ := z
      exact h.1 z1 (List.of_mem_zip hz).1

/-- C6: `summarize_terms` splits the sorted term table into the unigram and
bigram+ subsets by the space-presence rule and truncates each to `top_n`
rows; each subset is sorted by descending count, and — because the
descending sort is stable and the vocabulary is lexicographically
ascending — ties among equal counts appear in ascending lexical order of
the term string. -/
theorem summarize_terms_split_sorted (X : List (List Nat)) (vocab : List String)
    (top_n : Nat)
    (hv : List.Pairwise (fun a b => strLtB a b = true) vocab) :
    ((summarize_terms X vocab top_n).top_unigrams.length ≤ top_n ∧
     (summarize_terms X vocab top_n).top_bigrams.length ≤ top_n) ∧
    ((∀ e ∈ (summarize_terms X vocab top_n).top_unigrams,
        hasSpaceT e.term = false ∧
        (e, "unigram") ∈ (summarize_terms X vocab top_n).tidy_all_terms) ∧
     (∀ e ∈ (summarize_terms X vocab top_n).top_bigrams,
        hasSpaceT e.term = true ∧
        (e, "bigram+") ∈ (summarize_terms X vocab top_n).tidy_all_terms)) ∧
    (List.Pairwise (fun a b => b.cnt ≤ a.cnt)
        (summarize_terms X vocab top_n).top_unigrams ∧
     List.Pairwise (fun a b => b.cnt ≤ a.cnt)
        (summarize_terms X vocab top_n).top_bigrams) ∧
    (List.Pairwise (fun a b => a.cnt = b.cnt → strLtB a.term b.term = true)
        (summarize_terms X vocab top_n).top_unigrams ∧
     List.Pairwise (fun a b => a.cnt = b.cnt → strLtB a.term b.term = true)
        (summarize_terms X vocab top_n).top_bigrams) := by
  set pairs := vocab.zip (colSums X vocab.length) with hpairs
  set sortedDesc := sortKeyDesc (fun p : String × Nat => p.2) pairs with hsd
  set entries : List TermEntry := sortedDesc.map
    (fun p => ⟨p.1, p.2, (p.2 : ℚ) / (st_total X vocab : ℚ)⟩) with hent
  have hout_u : (summarize_terms X vocab top_n).top_unigrams =
      (entries.filter (fun e => !hasSpaceT e.term)).take top_n := rfl
  have hout_b : (summarize_terms X vocab top_n).top_bigrams =
      (entries.filter (fun e => hasSpaceT e.term)).take top_n := rfl
  have hout_t : (summarize_terms X vocab top_n).tidy_all_terms =
      entries.map (fun e => (e, if hasSpaceT e.term then "bigram+" else "unigram")) :=
    rfl
  have hsub_u : ((entries.filter (fun e => !hasSpaceT e.term)).take top_n).Sublist
      entries :=
    (List.take_sublist _ _).trans (List.filter_sublist _)
  have hsub_b : ((entries.filter (fun e => hasSpaceT e.term)).take top_n).Sublist
      entries :=
    (List.take_sublist _ _).trans (List.filter_sublist _)
  have hdesc : List.Pairwise (fun a b : TermEntry => b.cnt ≤ a.cnt) entries := by
    rw [hent, List.pairwise_map]
    exact sortKeyDesc_pairwise_ge (fun p : String × Nat => p.2) pairs
  have htie : List.Pairwise
      (fun a b : TermEntry => a.cnt = b.cnt → strLtB a.term b.term = true)
      entries := by
    rw [hent, List.pairwise_map]
    have hzip : List.Pairwise
        (fun a b : String × Nat => a.2 = b.2 → strLtB a.1 b.1 = true) pairs := by
      refine List.Pairwise.imp ?_ (pairwise_zip_left _ vocab _ hv)
      intro a b hab _
      exact hab
    exact sortKeyDesc_pairwise_tie (fun p : String × Nat => p.2)
      (fun a b => strLtB a.1 b.1 = true) pairs hzip
  refine ⟨⟨?_, ?_⟩, ⟨?_, ?_⟩, ⟨?_, ?_⟩, ⟨?_, ?_⟩⟩
  · rw [hout_u]; exact List.length_take_le top_n _
  · rw [hout_b]; exact List.length_take_le top_n _
  · intro e he
    rw [hout_u] at he
    have hmem := hsub_u.subset he
    have hne : hasSpaceT e.term = false := by
      have := (List.mem_filter.mp ((List.take_sublist _ _).subset he)).2
      simpa using this
    refine ⟨hne, ?_⟩
    rw [hout_t]
    have : (e, if hasSpaceT e.term then "bigram+" else "unigram") ∈
        entries.map (fun e => (e, if hasSpaceT e.term then "bigram+" else "unigram")) :=
      List.mem_map_of_mem _ hmem
    rwa [hne] at this
  · intro e he
    rw [hout_b] at he
    have hmem := hsub_b.subset he
    have hne : hasSpaceT e.term = true :=
      (List.mem_filter.mp ((List.take_sublist _ _).subset he)).2
    refine ⟨hne, ?_⟩
    rw [hout_t]
    have : (e, if hasSpaceT e.term then "bigram+" else "unigram") ∈
        entries.map (fun e => (e, if hasSpaceT e.term then "bigram+" else "unigram")) :=
      List.mem_map_of_mem _ hmem
    rwa [hne] at this
  · rw [hout_u]; exact hdesc.sublist hsub_u
  · rw [hout_b]; exact hdesc.sublist hsub_b
  · rw [hout_u]; exact htie.sublist hsub_u
  · rw [hout_b]; exact htie.sublist hsub_b

/-- C6 witness: the ordering properties on a concrete table with two
equal-count unigrams over an ascending vocabulary (the tie comes out as
`alpha` before `beta`). -/
theorem summarize_terms_split_sorted_witness :
    (((summarize_terms [[1, 1], [1, 1]] ["alpha", "beta"] 5).top_unigrams.length ≤ 5 ∧
      (summarize_terms [[1, 1], [1, 1]] ["alpha", "beta"] 5).top_bigrams.length ≤ 5) ∧
     ((∀ e ∈ (summarize_terms [[1, 1], [1, 1]] ["alpha", "beta"] 5).top_unigrams,
         hasSpaceT e.term = false ∧
         (e, "unigram") ∈
           (summarize_terms [[1, 1], [1, 1]] ["alpha", "beta"] 5).tidy_all_terms) ∧
      (∀ e ∈ (summarize_terms [[1, 1], [1, 1]] ["alpha", "beta"] 5).top_bigrams,
         hasSpaceT e.term = true ∧
         (e, "bigram+") ∈
           (summarize_terms [[1, 1], [1, 1]] ["alpha", "beta"] 5).tidy_all_terms)) ∧
     (List.Pairwise (fun a b => b.cnt ≤ a.cnt)
         (summarize_terms [[1, 1], [1, 1]] ["alpha", "beta"] 5).top_unigrams ∧
      List.Pairwise (fun a b => b.cnt ≤ a.cnt)
         (summarize_terms [[1, 1], [1, 1]] ["alpha", "beta"] 5).top_bigrams) ∧
     (List.Pairwise (fun a b => a.cnt = b.cnt → strLtB a.term b.term = true)
         (summarize_terms [[1, 1], [1, 1]] ["alpha", "beta"] 5).top_unigrams ∧
      List.Pairwise (fun a b => a.cnt = b.cnt → strLtB a.term b.term = true)
         (summarize_terms [[1, 1], [1, 1]] ["alpha", "beta"] 5).top_bigrams)) :=
  summarize_terms_split_sorted [[1, 1], [1, 1]] ["alpha", "beta"] 5 (by decide)

/-! ## C2 -/

/-- C2 counterexample: the normalizer is not idempotent.  HTML unescaping is
a single pass, so `"&amp;amp;"` normalizes to `"&amp;"`, which a second
normalization unescapes further to `"&"`. -/
theorem normalize_title_not_idempotent :
    normalize_title (normalize_title "&amp;amp;") ≠ normalize_title "&amp;amp;" := by
  decide

/-! ## C2: character-level lemmas -/

/-- The function `Char.ofNat` round-trips on the basic multilingual plane below the
surrogates. -/
lemma toNat_charOfNat (n : Nat) (h : n < 55296) : (Char.ofNat n).toNat = n := by
  have hv : n.isValidChar := Or.inl h
  rw [Char.ofNat, dif_pos hv]
  simp [Char.ofNatAux, Char.toNat, UInt32.toNat]

/-- Characters with equal code points are equal. -/
lemma char_eq_of_toNat {a b : Char} (h : a.toNat = b.toNat) : a = b :=
  Char.eq_of_val_eq (UInt32.ext h)

/-- Code point of `pyLower`. -/
lemma pyLower_toNat (c : Char) :
    (pyLower c).toNat =
      if lowerRange c.toNat then c.toNat + 32 else c.toNat := by
  unfold pyLower
  split
  · rename_i hr
    refine toNat_charOfNat _ ?_
    unfold lowerRange at hr
    omega
  · rfl

/-- The function `pyIsSpace` as a proposition on the code point. -/
lemma pyIsSpace_iff (c : Char) :
    pyIsSpace c = true ↔ (c.toNat = 32 ∨ c.toNat = 9 ∨ c.toNat = 10 ∨
      c.toNat = 11 ∨ c.toNat = 12 ∨ c.toNat = 13 ∨ c.toNat = 160) := by
  unfold pyIsSpace
  simp only [Bool.or_eq_true, decide_eq_true_eq]
  omega

/-- The function `isUpperAZ` as a proposition on the code point. -/
lemma isUpperAZ_iff (c : Char) :
    isUpperAZ c = true ↔ (65 ≤ c.toNat ∧ c.toNat ≤ 90) := by
  unfold isUpperAZ
  simp only [Bool.and_eq_true, decide_eq_true_eq]

/-- Lowercasing does not change whether a character is whitespace. -/
lemma pyLower_space_iff (c : Char) : pyIsSpace (pyLower c) = pyIsSpace c := by
  have h := pyLower_toNat c
  rw [Bool.eq_iff_iff, pyIsSpace_iff, pyIsSpace_iff]
  by_cases hr : lowerRange c.toNat
  · rw [if_pos hr] at h
    rw [h]
    unfold lowerRange at hr
    omega
  · rw [if_neg hr] at h
    rw [h]

/-- Lowercased characters are never ASCII capitals. -/
lemma pyLower_not_upper (c : Char) : isUpperAZ (pyLower c) = false := by
  have h := pyLower_toNat c
  rw [Bool.eq_false_iff, Ne, isUpperAZ_iff]
  by_cases hr : lowerRange c.toNat
  · rw [if_pos hr] at h
    rw [h]
    unfold lowerRange at hr
    omega
  · rw [if_neg hr] at h
    rw [h]
    unfold lowerRange at hr
    omega

/-- The function `pyLower` is idempotent. -/
lemma pyLower_idem (c : Char) : pyLower (pyLower c) = pyLower c := by
  by_cases hr : lowerRange c.toNat
  · have h1 : (pyLower c).toNat = c.toNat + 32 := by
      rw [pyLower_toNat, if_pos hr]
    have hr2 : ¬ lowerRange (pyLower c).toNat := by
      rw [h1]
      unfold lowerRange at hr ⊢
      omega
    exact char_eq_of_toNat (by rw [pyLower_toNat (pyLower c), if_neg hr2])
  · have h1 : pyLower c = c := by
      unfold pyLower
      rw [if_neg hr]
    rw [h1]
    exact h1

/-- The function `compose2` succeeds exactly on the table pairs. -/
lemma compose2_ne_none_iff (x y : Char) :
    compose2 x y ≠ none ↔
      ((y.toNat = 769 ∧ (x.toNat = 101 ∨ x.toNat = 69)) ∨
       (y.toNat = 768 ∧ (x.toNat = 97 ∨ x.toNat = 65)) ∨
       (y.toNat = 770 ∧ (x.toNat = 111 ∨ x.toNat = 79))) := by
  unfold compose2
  split_ifs <;> simp_all

/-- The function `compose2` fails exactly off the table pairs. -/
lemma compose2_eq_none_iff (x y : Char) :
    compose2 x y = none ↔
      ¬ ((y.toNat = 769 ∧ (x.toNat = 101 ∨ x.toNat = 69)) ∨
         (y.toNat = 768 ∧ (x.toNat = 97 ∨ x.toNat = 65)) ∨
         (y.toNat = 770 ∧ (x.toNat = 111 ∨ x.toNat = 79))) := by
  rw [← compose2_ne_none_iff]
  exact not_not.symm

/-- The code point of a composed character. -/
lemma compose2_some_toNat {u v h : Char} (huv : compose2 u v = some h) :
    h.toNat = 233 ∨ h.toNat = 201 ∨ h.toNat = 224 ∨ h.toNat = 192 ∨
    h.toNat = 244 ∨ h.toNat = 212 := by
  unfold compose2 at huv
  split_ifs at huv
  all_goals injection huv with he
  all_goals subst he
  all_goals decide

/-- A composed character is never a combining mark, so nothing composes
with it on the right. -/
lemma compose2_composed_right {u v h : Char} (huv : compose2 u v = some h)
    (w : Char) : compose2 w h = none := by
  rw [compose2_eq_none_iff]
  have := compose2_some_toNat huv
  omega

/-- Whitespace composes with nothing on the left. -/
lemma compose2_space_left (y : Char) : compose2 ' ' y = none := by
  rw [compose2_eq_none_iff]
  have h32 : (' ').toNat = 32 := rfl
  omega

/-- Whitespace composes with nothing on the right either. -/
lemma compose2_space_right (x : Char) : compose2 x ' ' = none := by
  rw [compose2_eq_none_iff]
  have h32 : (' ').toNat = 32 := rfl
  omega

/-- Lowercasing never creates a composable pair. -/
lemma pyLower_compose_none {a b : Char} (h : compose2 a b = none) :
    compose2 (pyLower a) (pyLower b) = none := by
  have ha := pyLower_toNat a
  have hb := pyLower_toNat b
  rw [compose2_eq_none_iff] at h ⊢
  by_cases hra : lowerRange a.toNat
  · rw [if_pos hra] at ha
    by_cases hrb : lowerRange b.toNat
    · rw [if_pos hrb] at hb
      unfold lowerRange at hra hrb
      omega
    · rw [if_neg hrb] at hb
      unfold lowerRange at hra
      omega
  · rw [if_neg hra] at ha
    by_cases hrb : lowerRange b.toNat
    · rw [if_pos hrb] at hb
      unfold lowerRange at hrb
      omega
    · rw [if_neg hrb] at hb
      omega

/-! ## C2: list-level invariants

The invariants carried through the normalizer pipeline: every whitespace
character is a plain space, no two adjacent whitespace characters, no
adjacent canonically composable pair, whitespace-free ends, no ASCII
capitals, fixed under lowercasing. -/

/-- Every whitespace character of the list is a plain space. -/
def SpacesSp (l : List Char) : Prop :=
  ∀ c ∈ l, pyIsSpace c = true → c = ' '

/-- No adjacent pair of whitespace characters. -/
def NTChain (l : List Char) : Prop :=
  List.Chain' (fun a b => (pyIsSpace a && pyIsSpace b) = false) l

/-- No adjacent canonically composable pair (NFC-normal in the modelled
fragment). -/
def COKChain (l : List Char) : Prop :=
  List.Chain' (fun a b => compose2 a b = none) l

/-- Characters of `subWsGo` output: the emitted space, or a non-whitespace
input character. -/
lemma subWsGo_mem : ∀ (l : List Char) (b : Bool) (c : Char),
    c ∈ subWsGo b l → c = ' ' ∨ (c ∈ l ∧ pyIsSpace c = false) := by
  intro l
  induction l with
  | nil => intro b c hc; cases b <;> simp [subWsGo] at hc
  | cons d rest ih =>
    intro b c hc
    by_cases hd : pyIsSpace d = true
    · cases b with
      | true =>
        rw [show subWsGo true (d :: rest) = subWsGo true rest by
          simp [subWsGo, hd]] at hc
        rcases ih true c hc with h | h
        · exact Or.inl h
        · exact Or.inr ⟨List.mem_cons_of_mem d h.1, h.2⟩
      | false =>
        rw [show subWsGo false (d :: rest) = ' ' :: subWsGo true rest by
          simp [subWsGo, hd]] at hc
        rcases List.mem_cons.mp hc with h | h
        · exact Or.inl h
        · rcases ih true c h with h' | h'
          · exact Or.inl h'
          · exact Or.inr ⟨List.mem_cons_of_mem d h'.1, h'.2⟩
    · have hd' : pyIsSpace d = false := Bool.eq_false_iff.mpr hd
      have hgo : subWsGo b (d :: rest) = d :: subWsGo false rest := by
        cases b <;> simp [subWsGo, hd']
      rw [hgo] at hc
      rcases List.mem_cons.mp hc with h | h
      · exact Or.inr ⟨h ▸ List.mem_cons_self d rest, h ▸ hd'⟩
      · rcases ih false c h with h' | h'
        · exact Or.inl h'
        · exact Or.inr ⟨List.mem_cons_of_mem d h'.1, h'.2⟩

/-- The function `subWsGo` output has only plain spaces as whitespace. -/
lemma subWsGo_spaces (l : List Char) (b : Bool) : SpacesSp (subWsGo b l) := by
  intro c hc hsp
  rcases subWsGo_mem l b c hc with h | h
  · exact h
  · rw [h.2] at hsp
    cases hsp

/-- The head of `subWsGo true` output is never whitespace. -/
lemma subWsGo_true_head : ∀ l : List Char,
    (subWsGo true l).head? = none ∨
    ∃ c, (subWsGo true l).head? = some c ∧ pyIsSpace c = false := by
  intro l
  induction l with
  | nil => exact Or.inl rfl
  | cons d rest ih =>
    by_cases hd : pyIsSpace d = true
    · rw [show subWsGo true (d :: rest) = subWsGo true rest by
        simp [subWsGo, hd]]
      exact ih
    · have hd' : pyIsSpace d = false := Bool.eq_false_iff.mpr hd
      rw [show subWsGo true (d :: rest) = d :: subWsGo false rest by
        simp [subWsGo, hd']]
      exact Or.inr ⟨d, rfl, hd'⟩

/-- The head of `subWsGo false` output: nothing, the emitted space, or the
unchanged non-whitespace input head. -/
lemma subWsGo_false_head (l : List Char) :
    (subWsGo false l).head? = none ∨ (subWsGo false l).head? = some ' ' ∨
    (∃ c, l.head? = some c ∧ pyIsSpace c = false ∧
      (subWsGo false l).head? = some c) := by
  cases l with
  | nil => exact Or.inl rfl
  | cons d rest =>
    by_cases hd : pyIsSpace d = true
    · rw [show subWsGo false (d :: rest) = ' ' :: subWsGo true rest by
        simp [subWsGo, hd]]
      exact Or.inr (Or.inl rfl)
    · have hd' : pyIsSpace d = false := Bool.eq_false_iff.mpr hd
      rw [show subWsGo false (d :: rest) = d :: subWsGo false rest by
        simp [subWsGo, hd']]
      exact Or.inr (Or.inr ⟨d, rfl, hd', rfl⟩)

/-- The function `subWsGo` preserves NFC-normality (spaces compose with nothing). -/
lemma subWsGo_cok : ∀ (l : List Char) (b : Bool),
    COKChain l → COKChain (subWsGo b l) := by
  intro l
  induction l with
  | nil => intro b _; cases b <;> exact List.chain'_nil
  | cons d rest ih =>
    intro b h
    have hrest : COKChain rest := h.tail
    by_cases hd : pyIsSpace d = true
    · cases b with
      | true =>
        rw [show subWsGo true (d :: rest) = subWsGo true rest by
          simp [subWsGo, hd]]
        exact ih true hrest
      | false =>
        rw [show subWsGo false (d :: rest) = ' ' :: subWsGo true rest by
          simp [subWsGo, hd]]
        unfold COKChain
        rw [List.chain'_cons']
        exact ⟨fun y _ => compose2_space_left y, ih true hrest⟩
    · have hd' : pyIsSpace d = false := Bool.eq_false_iff.mpr hd
      rw [show subWsGo b (d :: rest) = d :: subWsGo false rest by
        cases b <;> simp [subWsGo, hd']]
      unfold COKChain
      rw [List.chain'_cons']
      refine ⟨?_, ih false hrest⟩
      intro y hy
      rcases subWsGo_false_head rest with hc | hc | ⟨c, hcr, _, hc⟩
      · rw [hc] at hy; cases hy
      · rw [hc] at hy
        cases hy
        exact compose2_space_right d
      · rw [hc] at hy
        have hyc : c = y := by simpa using hy
        subst hyc
        exact (List.chain'_cons'.mp h).1 c hcr

/-- The function `subWsGo` output never has two adjacent whitespace characters. -/
lemma subWsGo_nt : ∀ (l : List Char) (b : Bool), NTChain (subWsGo b l) := by
  intro l
  induction l with
  | nil => intro b; cases b <;> exact List.chain'_nil
  | cons d rest ih =>
    intro b
    by_cases hd : pyIsSpace d = true
    · cases b with
      | true =>
        rw [show subWsGo true (d :: rest) = subWsGo true rest by
          simp [subWsGo, hd]]
        exact ih true
      | false =>
        rw [show subWsGo false (d :: rest) = ' ' :: subWsGo true rest by
          simp [subWsGo, hd]]
        unfold NTChain
        rw [List.chain'_cons']
        refine ⟨?_, ih true⟩
        intro y hy
        rcases subWsGo_true_head rest with hc | ⟨c, hc, hcs⟩
        · rw [hc] at hy; cases hy
        · rw [hc] at hy
          cases hy
          rw [hcs]
          simp
    · have hd' : pyIsSpace d = false := Bool.eq_false_iff.mpr hd
      rw [show subWsGo b (d :: rest) = d :: subWsGo false rest by
        cases b <;> simp [subWsGo, hd']]
      unfold NTChain
      rw [List.chain'_cons']
      refine ⟨?_, ih false⟩
      intro y _
      rw [hd']
      simp

/-- On an already-collapsed list `subWsGo` is the identity (both modes, the
resumed mode provided the head is not whitespace). -/
lemma subWsGo_fix : ∀ l : List Char, SpacesSp l → NTChain l →
    subWsGo false l = l ∧
    ((∀ c ∈ l.head?, pyIsSpace c = false) → subWsGo true l = l) := by
  intro l
  induction l with
  | nil => exact fun _ _ => ⟨rfl, fun _ => rfl⟩
  | cons d rest ih =>
    intro hsp hnt
    have ihr := ih (fun c hc => hsp c (List.mem_cons_of_mem d hc)) hnt.tail
    by_cases hd : pyIsSpace d = true
    · have hds : d = ' ' := hsp d (List.mem_cons_self d rest) hd
      have hresthead : ∀ c ∈ rest.head?, pyIsSpace c = false := by
        intro c hc
        have := (List.chain'_cons'.mp hnt).1 c hc
        rw [hd] at this
        simpa using this
      constructor
      · rw [show subWsGo false (d :: rest) = ' ' :: subWsGo true rest by
          simp [subWsGo, hd]]
        rw [ihr.2 hresthead, hds]
      · intro hhead
        have := hhead d rfl
        rw [hd] at this
        cases this
    · have hd' : pyIsSpace d = false := Bool.eq_false_iff.mpr hd
      constructor
      · rw [show subWsGo false (d :: rest) = d :: subWsGo false rest by
          simp [subWsGo, hd']]
        rw [ihr.1]
      · intro _
        rw [show subWsGo true (d :: rest) = d :: subWsGo false rest by
          simp [subWsGo, hd']]
        rw [ihr.1]

/-- The composition pass fixes an NFC-normal list (any fuel). -/
lemma nfcF_fix : ∀ (fuel : Nat) (l : List Char), COKChain l → nfcF fuel l = l := by
  intro fuel
  induction fuel with
  | zero =>
    intro l _
    match l with
    | [] => rfl
    | [c] => rfl
    | a :: b :: rest => rfl
  | succ fuel ih =>
    intro l h
    match l with
    | [] => rfl
    | [c] => rfl
    | a :: b :: rest =>
      have hab : compose2 a b = none := (List.chain'_cons.mp h).1
      show (match compose2 a b with
        | some c => nfcF fuel (c :: rest)
        | none => a :: nfcF fuel (b :: rest)) = a :: b :: rest
      rw [hab]
      rw [ih (b :: rest) (List.chain'_cons.mp h).2]

/-- The function `nfc` fixes an NFC-normal list. -/
lemma nfc_fix (l : List Char) (h : COKChain l) : nfc l = l :=
  nfcF_fix l.length l h

/-- The head of a composition-pass output on a nonempty list: the original
head or a composed character. -/
lemma nfcF_head : ∀ (fuel : Nat) (b : Char) (rest : List Char),
    ∃ h t, nfcF fuel (b :: rest) = h :: t ∧
      (h = b ∨ ∃ u v, compose2 u v = some h) := by
  intro fuel
  induction fuel with
  | zero =>
    intro b rest
    match rest with
    | [] => exact ⟨b, [], rfl, Or.inl rfl⟩
    | c :: r => exact ⟨b, c :: r, rfl, Or.inl rfl⟩
  | succ fuel ih =>
    intro b rest
    match rest with
    | [] => exact ⟨b, [], rfl, Or.inl rfl⟩
    | c :: r =>
      cases hc : compose2 b c with
      | none =>
        refine ⟨b, nfcF fuel (c :: r), ?_, Or.inl rfl⟩
        show (match compose2 b c with
          | some d => nfcF fuel (d :: r)
          | none => b :: nfcF fuel (c :: r)) = b :: nfcF fuel (c :: r)
        rw [hc]
      | some d =>
        obtain ⟨h, t, heq, hd⟩ := ih d r
        refine ⟨h, t, ?_, ?_⟩
        · show (match compose2 b c with
            | some d => nfcF fuel (d :: r)
            | none => b :: nfcF fuel (c :: r)) = h :: t
          rw [hc]
          exact heq
        · rcases hd with hd | hd
          · exact Or.inr ⟨b, c, hd ▸ hc⟩
          · exact Or.inr hd

/-- The composition pass yields an NFC-normal list when given enough fuel. -/
lemma nfcF_normal : ∀ (fuel : Nat) (l : List Char), l.length ≤ fuel →
    COKChain (nfcF fuel l) := by
  intro fuel
  induction fuel with
  | zero =>
    intro l hl
    have : l = [] := List.length_eq_zero.mp (Nat.le_zero.mp hl)
    subst this
    exact List.chain'_nil
  | succ fuel ih =>
    intro l hl
    match l with
    | [] => exact List.chain'_nil
    | [c] => exact List.chain'_singleton c
    | a :: b :: rest =>
      cases hc : compose2 a b with
      | some d =>
        show COKChain (match compose2 a b with
          | some c => nfcF fuel (c :: rest)
          | none => a :: nfcF fuel (b :: rest))
        rw [hc]
        refine ih (d :: rest) ?_
        simp only [List.length_cons] at hl ⊢
        omega
      | none =>
        show COKChain (match compose2 a b with
          | some c => nfcF fuel (c :: rest)
          | none => a :: nfcF fuel (b :: rest))
        rw [hc]
        obtain ⟨h, t, heq, hd⟩ := nfcF_head fuel b rest
        have hrest : COKChain (nfcF fuel (b :: rest)) := by
          refine ih (b :: rest) ?_
          simp only [List.length_cons] at hl ⊢
          omega
        rw [heq] at hrest ⊢
        unfold COKChain
        rw [List.chain'_cons']
        refine ⟨?_, hrest⟩
        intro y hy
        have hyh : h = y := by simpa using hy
        subst hyh
        rcases hd with hd | ⟨u, v, huv⟩
        · exact hd ▸ hc
        · exact compose2_composed_right huv a

/-- The function `nfc` output is NFC-normal. -/
lemma nfc_normal (l : List Char) : COKChain (nfc l) :=
  nfcF_normal l.length l le_rfl

/-- The head of a `dropWhile` result does not satisfy the predicate. -/
lemma dropWhile_head_not (p : Char → Bool) :
    ∀ l : List Char, ∀ c ∈ (l.dropWhile p).head?, p c = false := by
  intro l
  induction l with
  | nil => intro c hc; cases hc
  | cons d rest ih =>
    intro c hc
    rw [List.dropWhile_cons] at hc
    by_cases hd : p d = true
    · rw [if_pos hd] at hc
      exact ih c hc
    · rw [if_neg hd] at hc
      have : d = c := by simpa using hc
      subst this
      exact Bool.eq_false_iff.mpr hd

/-- The function `dropWhile` is the identity when the head does not satisfy the
predicate. -/
lemma dropWhile_eq_self_of_head (p : Char → Bool) (l : List Char)
    (h : ∀ c ∈ l.head?, p c = false) : l.dropWhile p = l := by
  cases l with
  | nil => rfl
  | cons d rest =>
    rw [List.dropWhile_cons, if_neg]
    rw [h d rfl]
    simp

/-- The function `dropTrailWs` yields a prefix. -/
lemma dropTrailWs_isPrefix : ∀ l : List Char, dropTrailWs l <+: l := by
  intro l
  induction l with
  | nil => exact List.prefix_refl []
  | cons c rest ih =>
    show (let r := dropTrailWs rest;
      if r.isEmpty && pyIsSpace c then [] else c :: r) <+: c :: rest
    by_cases hc : ((dropTrailWs rest).isEmpty && pyIsSpace c) = true
    · rw [if_pos hc]
      exact List.nil_prefix
    · rw [if_neg hc]
      obtain ⟨t, ht⟩ := ih
      exact ⟨t, by rw [List.cons_append, ht]⟩

/-- The function `dropTrailWs` is the identity when the last character is not
whitespace. -/
lemma dropTrailWs_eq_self : ∀ l : List Char,
    (∀ c ∈ l.getLast?, pyIsSpace c = false) → dropTrailWs l = l := by
  intro l
  induction l with
  | nil => intro _; rfl
  | cons c rest ih =>
    intro h
    show (let r := dropTrailWs rest;
      if r.isEmpty && pyIsSpace c then [] else c :: r) = c :: rest
    cases rest with
    | nil =>
      have hc : pyIsSpace c = false := h c rfl
      simp [dropTrailWs, hc]
    | cons d r' =>
      have hrest : dropTrailWs (d :: r') = d :: r' := by
        refine ih ?_
        intro e he
        refine h e ?_
        rwa [List.getLast?_cons_cons]
      rw [hrest]
      simp

/-- The last character of a `dropTrailWs` result is not whitespace. -/
lemma dropTrailWs_getLast : ∀ l : List Char,
    ∀ c ∈ (dropTrailWs l).getLast?, pyIsSpace c = false := by
  intro l
  induction l with
  | nil => intro c hc; cases hc
  | cons d rest ih =>
    intro c hc
    rw [show dropTrailWs (d :: rest) =
      (if (dropTrailWs rest).isEmpty && pyIsSpace d then []
       else d :: dropTrailWs rest) from rfl] at hc
    by_cases hd : ((dropTrailWs rest).isEmpty && pyIsSpace d) = true
    · rw [if_pos hd] at hc
      cases hc
    · rw [if_neg hd] at hc
      cases hr : dropTrailWs rest with
      | nil =>
        rw [hr] at hc hd
        simp only [List.isEmpty_nil, Bool.true_and] at hd
        have hdc : d = c := by
          simpa using hc
        subst hdc
        exact Bool.eq_false_iff.mpr hd
      | cons e r' =>
        rw [hr] at hc
        rw [List.getLast?_cons_cons] at hc
        refine ih c ?_
        rw [hr]
        exact hc

/-- The head of a `dropTrailWs` result, when present, is the original
head. -/
lemma dropTrailWs_head : ∀ l : List Char,
    (dropTrailWs l).head? = none ∨ (dropTrailWs l).head? = l.head? := by
  intro l
  cases l with
  | nil => exact Or.inl rfl
  | cons d rest =>
    have hdef : dropTrailWs (d :: rest) =
        if ((dropTrailWs rest).isEmpty && pyIsSpace d) = true then []
        else d :: dropTrailWs rest := rfl
    rw [hdef]
    by_cases hd : ((dropTrailWs rest).isEmpty && pyIsSpace d) = true
    · rw [if_pos hd]
      exact Or.inl rfl
    · rw [if_neg hd]
      exact Or.inr rfl

/-- A chain relation restricted to a prefix. -/
lemma chain_of_isPrefix {R : Char → Char → Prop} {l l' : List Char}
    (h : List.Chain' R l) (hp : l' <+: l) : List.Chain' R l' := by
  rw [List.prefix_iff_eq_take] at hp
  rw [hp]
  exact h.take _

/-- The function `pyStrip` preserves any chain relation. -/
lemma pyStrip_chain {R : Char → Char → Prop} {l : List Char}
    (h : List.Chain' R l) : List.Chain' R (pyStrip l) :=
  chain_of_isPrefix (h.suffix (List.dropWhile_suffix pyIsSpace))
    (dropTrailWs_isPrefix _)

/-- The function `pyStrip` keeps only input characters. -/
lemma pyStrip_subset (l : List Char) : pyStrip l ⊆ l :=
  fun _ hc =>
    (List.dropWhile_suffix pyIsSpace).sublist.subset
      ((dropTrailWs_isPrefix _).sublist.subset hc)

/-- The head of a `pyStrip` result is not whitespace. -/
lemma pyStrip_head (l : List Char) :
    ∀ c ∈ (pyStrip l).head?, pyIsSpace c = false := by
  intro c hc
  rcases dropTrailWs_head (l.dropWhile pyIsSpace) with h | h
  · rw [show pyStrip l = dropTrailWs (l.dropWhile pyIsSpace) from rfl, h] at hc
    cases hc
  · rw [show pyStrip l = dropTrailWs (l.dropWhile pyIsSpace) from rfl, h] at hc
    exact dropWhile_head_not pyIsSpace l c hc

/-- The last character of a `pyStrip` result is not whitespace. -/
lemma pyStrip_last (l : List Char) :
    ∀ c ∈ (pyStrip l).getLast?, pyIsSpace c = false :=
  dropTrailWs_getLast _

/-- The function `pyStrip` is the identity on a list with whitespace-free ends. -/
lemma pyStrip_eq_self (l : List Char)
    (hh : ∀ c ∈ l.head?, pyIsSpace c = false)
    (hl : ∀ c ∈ l.getLast?, pyIsSpace c = false) : pyStrip l = l := by
  show dropTrailWs (l.dropWhile pyIsSpace) = l
  rw [dropWhile_eq_self_of_head pyIsSpace l hh]
  exact dropTrailWs_eq_self l hl

/-- A successful trailer-tail match contains an ASCII capital. -/
lemma matchTrailer2_upper {t : List Char} (h : matchTrailer2 t = true) :
    ∃ c ∈ t, isUpperAZ c = true := by
  cases t with
  | nil => cases h
  | cons u t4 =>
    simp only [matchTrailer2, Bool.and_eq_true] at h
    exact ⟨u, List.mem_cons_self u t4, h.1.1⟩

/-- A successful trailer match contains an ASCII capital. -/
lemma matchTrailer_upper {t : List Char} (h : matchTrailer t = true) :
    ∃ c ∈ t, isUpperAZ c = true := by
  cases t with
  | nil => cases h
  | cons d t2 =>
    simp only [matchTrailer, Bool.and_eq_true] at h
    obtain ⟨c, hc, hcu⟩ := matchTrailer2_upper h.2
    exact ⟨c, List.mem_cons_of_mem d
      ((List.dropWhile_suffix pyIsSpace).sublist.subset hc), hcu⟩

/-- A successful `matchAt` requires an ASCII capital in the string. -/
lemma matchAt_upper {l : List Char} {i : Nat} (h : matchAt l i = true) :
    ∃ c ∈ l, isUpperAZ c = true := by
  obtain ⟨c, hc, hcu⟩ := matchTrailer_upper h
  exact ⟨c, (List.drop_sublist i l).subset
    ((List.dropWhile_suffix pyIsSpace).sublist.subset hc), hcu⟩

/-- The function `strip_trailing_source` preserves any chain relation. -/
lemma stripSrc_chain {R : Char → Char → Prop} {l : List Char}
    (h : List.Chain' R l) : List.Chain' R (strip_trailing_source l) := by
  unfold strip_trailing_source
  cases (List.range (l.length + 1)).find? (matchAt l) with
  | none => exact pyStrip_chain h
  | some i => exact pyStrip_chain (h.take i)

/-- The function `strip_trailing_source` keeps only input characters. -/
lemma stripSrc_subset (l : List Char) : strip_trailing_source l ⊆ l := by
  unfold strip_trailing_source
  cases (List.range (l.length + 1)).find? (matchAt l) with
  | none => exact pyStrip_subset l
  | some i => exact fun c hc => List.take_subset i l (pyStrip_subset _ hc)

/-- The head of a `strip_trailing_source` result is not whitespace. -/
lemma stripSrc_head (l : List Char) :
    ∀ c ∈ (strip_trailing_source l).head?, pyIsSpace c = false := by
  unfold strip_trailing_source
  cases (List.range (l.length + 1)).find? (matchAt l) with
  | none => exact pyStrip_head l
  | some i => exact pyStrip_head _

/-- The last character of a `strip_trailing_source` result is not
whitespace. -/
lemma stripSrc_last (l : List Char) :
    ∀ c ∈ (strip_trailing_source l).getLast?, pyIsSpace c = false := by
  unfold strip_trailing_source
  cases (List.range (l.length + 1)).find? (matchAt l) with
  | none => exact pyStrip_last l
  | some i => exact pyStrip_last _

/-- On a capital-free, whitespace-trimmed list the trailer pattern cannot
match, so `strip_trailing_source` is the identity. -/
lemma stripSrc_eq_self (l : List Char)
    (hup : ∀ c ∈ l, isUpperAZ c = false)
    (hh : ∀ c ∈ l.head?, pyIsSpace c = false)
    (hl : ∀ c ∈ l.getLast?, pyIsSpace c = false) :
    strip_trailing_source l = l := by
  have hnone : (List.range (l.length + 1)).find? (matchAt l) = none := by
    rw [List.find?_eq_none]
    intro i _ hm
    obtain ⟨c, hcl, hcu⟩ := matchAt_upper hm
    rw [hup c hcl] at hcu
    cases hcu
  unfold strip_trailing_source
  rw [hnone]
  exact pyStrip_eq_self l hh hl

/-- Lowercasing preserves NFC-normality. -/
lemma map_pyLower_cok {l : List Char} (h : COKChain l) :
    COKChain (l.map pyLower) := by
  unfold COKChain at h ⊢
  rw [List.chain'_map]
  exact h.imp (fun a b hab => pyLower_compose_none hab)

/-- Lowercasing preserves the no-two-adjacent-spaces invariant. -/
lemma map_pyLower_nt {l : List Char} (h : NTChain l) :
    NTChain (l.map pyLower) := by
  unfold NTChain at h ⊢
  rw [List.chain'_map]
  refine h.imp ?_
  intro a b hab
  rw [pyLower_space_iff, pyLower_space_iff]
  exact hab

/-- Lowercasing preserves the plain-space invariant. -/
lemma map_pyLower_spaces {l : List Char} (h : SpacesSp l) :
    SpacesSp (l.map pyLower) := by
  intro c hc hsp
  obtain ⟨d, hd, rfl⟩ := List.mem_map.mp hc
  rw [pyLower_space_iff] at hsp
  rw [h d hd hsp]
  decide

/-- No character of a lowercased list is an ASCII capital. -/
lemma map_pyLower_not_upper (l : List Char) :
    ∀ c ∈ l.map pyLower, isUpperAZ c = false := by
  intro c hc
  obtain ⟨d, _, rfl⟩ := List.mem_map.mp hc
  exact pyLower_not_upper d

/-- Lowercasing keeps the head whitespace-free. -/
lemma map_pyLower_head {l : List Char}
    (h : ∀ c ∈ l.head?, pyIsSpace c = false) :
    ∀ c ∈ (l.map pyLower).head?, pyIsSpace c = false := by
  intro c hc
  rw [List.head?_map] at hc
  cases hl : l.head? with
  | none => rw [hl] at hc; cases hc
  | some d =>
    rw [hl] at hc
    have : pyLower d = c := by simpa using hc
    subst this
    rw [pyLower_space_iff]
    exact h d (by rw [hl]; rfl)

/-- Lowercasing keeps the last character whitespace-free. -/
lemma map_pyLower_last {l : List Char}
    (h : ∀ c ∈ l.getLast?, pyIsSpace c = false) :
    ∀ c ∈ (l.map pyLower).getLast?, pyIsSpace c = false := by
  intro c hc
  rw [List.getLast?_map] at hc
  cases hl : l.getLast? with
  | none => rw [hl] at hc; cases hc
  | some d =>
    rw [hl] at hc
    have : pyLower d = c := by simpa using hc
    subst this
    rw [pyLower_space_iff]
    exact h d (by rw [hl]; rfl)

/-- Lowercasing is idempotent on lists. -/
lemma map_pyLower_idem (l : List Char) :
    (l.map pyLower).map pyLower = l.map pyLower := by
  rw [List.map_map]
  exact List.map_congr_left (fun c _ => pyLower_idem c)

/-- C2 amended: the normalizer is idempotent on every string whose
normalized form is fixed by HTML unescaping (no character reference
survives the first pass); in general a second pass can only differ by
further unescaping, as the counterexample `"&amp;amp;"` shows. -/
theorem normalize_title_idem_of_unescape_fixed (s : String)
    (h : unescape (normalize_title s).data = (normalize_title s).data) :
    normalize_title (normalize_title s) = normalize_title s := by
  have hw_nt : NTChain (fixUnicodeList s.data) :=
    pyStrip_chain (subWsGo_nt _ false)
  have hw_sp : SpacesSp (fixUnicodeList s.data) :=
    fun c hc hsp => subWsGo_spaces _ false c (pyStrip_subset _ hc) hsp
  have hw_cok : COKChain (fixUnicodeList s.data) :=
    pyStrip_chain (subWsGo_cok _ false (nfc_normal _))
  have hu_cok : COKChain (strip_trailing_source (fixUnicodeList s.data)) :=
    stripSrc_chain hw_cok
  have hu_nt : NTChain (strip_trailing_source (fixUnicodeList s.data)) :=
    stripSrc_chain hw_nt
  have hu_sp : SpacesSp (strip_trailing_source (fixUnicodeList s.data)) :=
    fun c hc hsp => hw_sp c (stripSrc_subset _ hc) hsp
  have hu_head := stripSrc_head (fixUnicodeList s.data)
  have hu_last := stripSrc_last (fixUnicodeList s.data)
  have htdata : (normalize_title s).data =
      (strip_trailing_source (fixUnicodeList s.data)).map pyLower := rfl
  have ht_cok : COKChain ((normalize_title s).data) := by
    rw [htdata]; exact map_pyLower_cok hu_cok
  have ht_nt : NTChain ((normalize_title s).data) := by
    rw [htdata]; exact map_pyLower_nt hu_nt
  have ht_sp : SpacesSp ((normalize_title s).data) := by
    rw [htdata]; exact map_pyLower_spaces hu_sp
  have ht_up : ∀ c ∈ (normalize_title s).data, isUpperAZ c = false := by
    rw [htdata]; exact map_pyLower_not_upper _
  have ht_head : ∀ c ∈ (normalize_title s).data.head?, pyIsSpace c = false := by
    rw [htdata]; exact map_pyLower_head hu_head
  have ht_last : ∀ c ∈ (normalize_title s).data.getLast?, pyIsSpace c = false := by
    rw [htdata]; exact map_pyLower_last hu_last
  have ht_low : (normalize_title s).data.map pyLower = (normalize_title s).data := by
    rw [htdata]; exact map_pyLower_idem _
  have hfix : fixUnicodeList (normalize_title s).data = (normalize_title s).data := by
    show pyStrip (subWsRuns (nfc (unescape (normalize_title s).data))) =
      (normalize_title s).data
    rw [h, nfc_fix _ ht_cok]
    rw [show subWsRuns ((normalize_title s).data) =
      subWsGo false ((normalize_title s).data) from rfl]
    rw [(subWsGo_fix _ ht_sp ht_nt).1]
    exact pyStrip_eq_self _ ht_head ht_last
  have hstr : strip_trailing_source (fixUnicodeList (normalize_title s).data) =
      (normalize_title s).data := by
    rw [hfix]
    exact stripSrc_eq_self _ ht_up ht_head ht_last
  show (⟨(strip_trailing_source
    (fixUnicodeList (normalize_title s).data)).map pyLower⟩ : String) =
    normalize_title s
  rw [hstr, ht_low]

/-- C2 witness: a headline with doubled spaces and a trailing source
attribution normalizes to an unescape-fixed string, on which the normalizer
is idempotent. -/
theorem normalize_title_idem_witness :
    normalize_title (normalize_title "Fed  Hikes Rates — Reuters") =
      normalize_title "Fed  Hikes Rates — Reuters" :=
  normalize_title_idem_of_unescape_fixed "Fed  Hikes Rates — Reuters"
    (by decide)
